import Mathlib

/-!
Verification development for the `include_preprocessor` crate.

The Rust sources are shallowly embedded:

* `src/line_parser.rs` — the line-level directive grammar, built from `nom`
  combinators.  We model the relevant `nom` combinators (`tag`, `space0`,
  `space1`, `line_ending`, `not_line_ending`, `is_not`, `char`, `alt`,
  `opt`, `not(peek(...))`) as functions over `List Char`, and `parse_line`
  as the ordered alternative `pragma_once <|> text <|> include` exactly as
  in the source.
* `src/include_preprocessor.rs` — search paths, include resolution,
  node parsing (`ParsedNode::try_parse`), the graph loader
  (`Parsed::try_init`, with the worker pool abstracted into an explicit
  schedule choosing which outstanding parse result is received next), and
  the flattening writer (`Parsed::write`, instrumented with an event
  trace).

The operating system's file system is abstracted into a finite map from
canonical paths to file contents together with a raw-file predicate and a
canonicalization function.  The 64-bit hash produced by
`std::collections::hash_map::DefaultHasher` is abstracted into a parameter
`hf : List Char → Fin (2 ^ 64)`; the only property of the real hasher used
anywhere is that its output is a 64-bit value.  Strings are modeled as
`List Char` and byte offsets as character offsets.
-/

/-- 64-bit node identity keys, the output type of `DefaultHasher::finish`. -/
abbrev Key : Type := Fin (2 ^ 64)

/-- Convert a Lean string literal to the `List Char` representation used
throughout the development. -/
def toChars (s : String) : List Char := s.data

namespace LineParser

/-- `src/line_parser.rs` `Line`: the classification of one input line. -/
inductive IncludePath where
  | Angle (target : List Char)
  | Quote (target : List Char)
deriving DecidableEq, Repr

/-- The target text carried by an include path, as written in the source
line (unresolved). -/
def IncludePath.target : IncludePath → List Char
  | .Angle t => t
  | .Quote t => t

inductive Line where
  | Text
  | Include (path : IncludePath)
  | PragmaOnce
deriving DecidableEq, Repr

/-- `nom::bytes::complete::tag`: consume the exact character sequence
`pat` from the front of the input, or fail. -/
def tagP : List Char → List Char → Option (List Char)
  | [], inp => some inp
  | _ :: _, [] => none
  | p :: ps, c :: cs => if c = p then tagP ps cs else none

/-- A character accepted by `nom`'s `space0` / `space1` (space or tab). -/
def isSpaceTab (c : Char) : Bool := c = ' ' ∨ c = '\t'

/-- `nom::character::complete::space0`: consume zero or more spaces/tabs. -/
def space0P : List Char → List Char
  | [] => []
  | c :: cs => if isSpaceTab c then space0P cs else c :: cs

/-- `nom::character::complete::space1`: consume one or more spaces/tabs,
failing when the input does not start with a space or tab. -/
def space1P : List Char → Option (List Char)
  | [] => none
  | c :: cs => if isSpaceTab c then some (space0P cs) else none

/-- `nom::character::complete::line_ending`: `"\n"` or `"\r\n"`. -/
def lineEndingP : List Char → Option (List Char)
  | [] => none
  | c :: cs =>
    if c = '\n' then some cs
    else if c = '\r' then
      match cs with
      | [] => none
      | c2 :: r => if c2 = '\n' then some r else none
    else none

/-- `nom::character::complete::not_line_ending` (complete version):
consume the longest prefix containing neither `'\r'` nor `'\n'`; fail if a
`'\r'` is found that is not immediately followed by `'\n'`.  Returns the
remaining input. -/
def notLineEndingP : List Char → Option (List Char)
  | [] => some []
  | c :: cs =>
    if c = '\n' then some (c :: cs)
    else if c = '\r' then
      if cs.head? = some '\n' then some (c :: cs) else none
    else notLineEndingP cs

/-- `nom::bytes::complete::is_not bad`: consume the longest nonempty
prefix of characters not in `bad`, returning (remainder, consumed); fail
if that prefix is empty. -/
def isNotP (bad : List Char) : List Char → Option (List Char × List Char)
  | [] => none
  | c :: cs =>
    if c ∈ bad then none
    else
      match isNotP bad cs with
      | some (rem, consumed) => some (rem, c :: consumed)
      | none => some (cs, [c])

/-- `nom::character::complete::char c`. -/
def charP (x : Char) : List Char → Option (List Char)
  | [] => none
  | c :: cs => if c = x then some cs else none

/-- `line_text` from `src/line_parser.rs`:
`tuple((not(peek(tuple((tag("#include"), space1)))), not_line_ending, opt(line_ending)))`. -/
def lineTextP (inp : List Char) : Option (List Char × Line) :=
  let incPeek :=
    match tagP (toChars "#include") inp with
    | some r1 => (space1P r1).isSome
    | none => false
  if incPeek then none
  else
    match notLineEndingP inp with
    | some rem1 =>
      match lineEndingP rem1 with
      | some rem2 => some (rem2, Line.Text)
      | none => some (rem1, Line.Text)
    | none => none

/-- `line_pragma_once` from `src/line_parser.rs`:
`tuple((tag("#pragma"), space1, tag("once"), space0, line_ending))`. -/
def linePragmaOnceP (inp : List Char) : Option (List Char × Line) :=
  match tagP (toChars "#pragma") inp with
  | none => none
  | some r1 =>
    match space1P r1 with
    | none => none
    | some r2 =>
      match tagP (toChars "once") r2 with
      | none => none
      | some r3 =>
        match lineEndingP (space0P r3) with
        | none => none
        | some rem => some (rem, Line.PragmaOnce)

/-- `angle_path`: `delimited(char('<'), is_not(">\r\n"), char('>'))`. -/
def anglePathP (inp : List Char) : Option (List Char × IncludePath) :=
  match charP '<' inp with
  | none => none
  | some r1 =>
    match isNotP ['>', '\r', '\n'] r1 with
    | none => none
    | some (r2, target) =>
      match charP '>' r2 with
      | none => none
      | some rem => some (rem, IncludePath.Angle target)

/-- `quote_path`: `delimited(char('"'), is_not("\"\r\n"), char('"'))`. -/
def quotePathP (inp : List Char) : Option (List Char × IncludePath) :=
  match charP '"' inp with
  | none => none
  | some r1 =>
    match isNotP ['"', '\r', '\n'] r1 with
    | none => none
    | some (r2, target) =>
      match charP '"' r2 with
      | none => none
      | some rem => some (rem, IncludePath.Quote target)

/-- `include_path`: `alt((angle_path, quote_path))`. -/
def includePathP (inp : List Char) : Option (List Char × IncludePath) :=
  (anglePathP inp).orElse fun _ => quotePathP inp

/-- `line_include`:
`tuple((tag("#include"), space1, include_path, space0, line_ending))`. -/
def lineIncludeP (inp : List Char) : Option (List Char × Line) :=
  match tagP (toChars "#include") inp with
  | none => none
  | some r1 =>
    match space1P r1 with
    | none => none
    | some r2 =>
      match includePathP r2 with
      | none => none
      | some (r3, ip) =>
        match lineEndingP (space0P r3) with
        | none => none
        | some rem => some (rem, Line.Include ip)

/-- `parse_line`: `alt((line_pragma_once, line_text, line_include))`.
The alternatives are tried in exactly this order; `none` models a `nom`
parse error. -/
def parse_lineP (inp : List Char) : Option (List Char × Line) :=
  ((linePragmaOnceP inp).orElse fun _ => lineTextP inp).orElse fun _ =>
    lineIncludeP inp

/-- Every line of the input classifies as Text under `parse_line` (the
input contains no directive lines and no malformed `#include` lines). -/
inductive AllText : List Char → Prop where
  | nil : AllText []
  | step {s rem : List Char} :
      parse_lineP s = some (rem, Line.Text) → AllText rem → AllText s

/-- Iterated line parsing: the remaining input after `n` successfully
parsed lines.  Models the loop variable `remainder` of
`ParsedNode::try_parse` after `n` iterations; `line_number = n` there. -/
def nthRem : Nat → List Char → Option (List Char)
  | 0, rem => some rem
  | n + 1, rem =>
    match parse_lineP rem with
    | some (rem', _) => nthRem n rem'
    | none => none

end LineParser

namespace IPP

open LineParser

/-- Association-list lookup, modeling `HashMap::get` / keyed access. -/
def lookupA {α β : Type} [DecidableEq α] : List (α × β) → α → Option β
  | [], _ => none
  | (k, v) :: rest, k' => if k' = k then some v else lookupA rest k'

/-- Association-list insert-or-replace, modeling `HashMap::insert`. -/
def upsertA {α β : Type} [DecidableEq α] : List (α × β) → α → β → List (α × β)
  | [], k, v => [(k, v)]
  | (k0, v0) :: rest, k, v =>
    if k = k0 then (k, v) :: rest else (k0, v0) :: upsertA rest k v

/-- `SearchPaths` from `src/include_preprocessor.rs`: ordered base and
quoted search directories. -/
structure SearchPaths where
  base_paths : List (List Char)
  quoted_paths : List (List Char)

/-- `SearchPaths::quoted_paths`: the quoted-specific paths chained with
the base paths, in that order. -/
def SearchPaths.quotedPathsChain (sp : SearchPaths) : List (List Char) :=
  sp.quoted_paths ++ sp.base_paths

/-- Abstraction of the operating-system file system: `rawFiles` models
`Path::is_file` on raw (possibly non-canonical) paths, `canon` models
`Path::canonicalize` (assumed to succeed on paths that are about to be
read), and `files` maps canonical paths to the contents returned by
`fs::read_to_string`. -/
structure FileSys where
  rawFiles : List Char → Bool
  canon : List Char → List Char
  files : List (List Char × List Char)

/-- `PathBuf::join` for the ordinary relative-target case. -/
def joinPath (dir target : List Char) : List Char := dir ++ '/' :: target

/-- `Path::parent` of a path string: everything before the final `'/'`. -/
def parentDir (p : List Char) : List Char :=
  (p.reverse.dropWhile (· ≠ '/')).reverse.dropLast

/-- `FileNotFoundError` from `src/include_preprocessor.rs`. -/
structure FileNotFoundError where
  included_path : List Char
  source_file : List Char
  source : List Char
  line_number : Nat
deriving DecidableEq, Repr

/-- The constant message produced by `line_parser::Error`'s `Debug`
impl, used for `ParseError::message`. -/
def malformedMsg : List Char := toChars "malformed `#include ...` directive"

/-- `ParseError` from `src/include_preprocessor.rs`. -/
structure ParseErrorS where
  message : List Char
  source_file : List Char
  source : List Char
  line_number : Nat
deriving DecidableEq, Repr

/-- The unified `Error` enum from `src/include_preprocessor.rs`.  An I/O
failure carries no structured data in the model. -/
inductive Err where
  | FileNotFound (e : FileNotFoundError)
  | IOError
  | Parse (e : ParseErrorS)
deriving DecidableEq, Repr

/-- The loop of `try_resolve_include_path` over one ordered list of
search directories: join each with the target, first existing file wins. -/
def firstHit (fs : FileSys) (target : List Char) : List (List Char) → Option (List Char)
  | [] => none
  | d :: rest =>
    if fs.rawFiles (joinPath d target) then some (joinPath d target)
    else firstHit fs target rest

/-- `try_resolve_include_path` from `src/include_preprocessor.rs`.
`includedFrom` is the triple (including file's path, its source text, the
0-based line number of the directive).  An angle target scans the base
paths; a quoted target first tries the including file's parent directory,
then the quoted-chain.  A hit is canonicalized; a miss produces
`FileNotFoundError` carrying the original target text. -/
def tryResolveIncludePath (fs : FileSys) (ip : IncludePath)
    (includedFrom : List Char × List Char × Nat) (sp : SearchPaths) :
    Except Err (List Char) :=
  let resolved : Option (List Char) :=
    match ip with
    | .Angle t => firstHit fs t sp.base_paths
    | .Quote t =>
      let j := joinPath (parentDir includedFrom.1) t
      if fs.rawFiles j then some j else firstHit fs t sp.quotedPathsChain
  match resolved with
  | some r => .ok (fs.canon r)
  | none =>
    .error (.FileNotFound
      { included_path := ip.target
        source_file := includedFrom.1
        source := includedFrom.2.1
        line_number := includedFrom.2.2 })

/-- `NodeChunkInternal`: a text byte-range into the node's source buffer,
or the resolved canonical path of an include target. -/
inductive Chunk where
  | Text (start stop : Nat)
  | Include (path : List Char)
deriving DecidableEq, Repr

/-- `ParsedNode` from `src/include_preprocessor.rs`. -/
structure ParsedNode where
  path : List Char
  key : Key
  once : Bool
  source : List Char
  chunk_buffer : List Chunk
deriving DecidableEq, Repr

/-- The identity key of a canonical path: `DefaultHasher` hashing the
path and returning a `u64`.  The hash function itself is the parameter
`hf`; its 64-bit output type is the only property of `DefaultHasher` the
development relies on. -/
def nodeKey (hf : List Char → Key) (path : List Char) : Key := hf path

/-- The line-by-line loop of `ParsedNode::try_parse`: `rem` is the not
yet consumed suffix of `source`, `ln` the current 0-based line number,
`cs..ce` the in-progress merged text range, `chunks` the chunk buffer and
`once` the once-flag.  `fuel` bounds the iteration count (the loop always
terminates because each parsed line is nonempty; `none` means the fuel
was insufficient and never occurs for `fuel > rem.length`). -/
def parseChunksGo (fs : FileSys) (sp : SearchPaths) (path source : List Char) :
    Nat → List Char → Nat → Nat → Nat → List Chunk → Bool →
    Option (Except Err (List Chunk × Bool))
  | _, [], _, cs, ce, chunks, once =>
    some (.ok (chunks ++ (if cs < ce then [Chunk.Text cs ce] else []), once))
  | 0, _ :: _, _, _, _, _, _ => none
  | fuel + 1, c :: rem0, ln, cs, ce, chunks, once =>
    match parse_lineP (c :: rem0) with
    | none =>
      some (.error (.Parse
        { message := malformedMsg, source_file := path, source := source, line_number := ln }))
    | some (rem', line) =>
      let pos := source.length - rem'.length
      match line with
      | .Text => parseChunksGo fs sp path source fuel rem' (ln + 1) cs pos chunks once
      | .PragmaOnce =>
        parseChunksGo fs sp path source fuel rem' (ln + 1) pos pos
          (chunks ++ (if cs < ce then [Chunk.Text cs ce] else [])) true
      | .Include ip =>
        match tryResolveIncludePath fs ip (path, source, ln) sp with
        | .error e => .some (.error e)
        | .ok resolved =>
          parseChunksGo fs sp path source fuel rem' (ln + 1) pos pos
            ((chunks ++ (if cs < ce then [Chunk.Text cs ce] else [])) ++ [Chunk.Include resolved])
            once

/-- `ParsedNode::try_parse`: read the file at the canonical `path`, run
the line loop over its contents, and assemble the node.  `none` is the
fuel artifact of `parseChunksGo` and never occurs with the supplied fuel. -/
def parseNodeM (hf : List Char → Key) (fs : FileSys) (sp : SearchPaths)
    (path : List Char) : Option (Except Err ParsedNode) :=
  match lookupA fs.files path with
  | none => some (.error .IOError)
  | some source =>
    (parseChunksGo fs sp path source (source.length + 1) source 0 0 0 [] false).map
      (Except.map fun co =>
        { path := path, key := nodeKey hf path, once := co.2, source := source
          chunk_buffer := co.1 })

/-- `LoadState` from `src/include_preprocessor.rs`. -/
inductive LoadState where
  | Pending
  | Loaded (node : ParsedNode)
deriving DecidableEq, Repr

/-- `LoadState::loaded`. -/
def LoadState.loaded? : LoadState → Option ParsedNode
  | .Pending => none
  | .Loaded n => some n

/-- The graph table owned by the coordinator (`Parsed::lookup`). -/
abbrev Lookup := List (Key × LoadState)

/-- The `'inner` loop of `Parsed::try_init`: walk the include chunks of a
freshly received node; a target key already present is skipped, otherwise
it is inserted as `Pending` and its path dispatched as a new parse task. -/
def processChunks (hf : List Char → Key) :
    Lookup → List (List Char) → List Chunk → Lookup × List (List Char)
  | lookup, tasks, [] => (lookup, tasks)
  | lookup, tasks, Chunk.Text _ _ :: rest => processChunks hf lookup tasks rest
  | lookup, tasks, Chunk.Include p :: rest =>
    if (lookupA lookup (nodeKey hf p)).isSome then processChunks hf lookup tasks rest
    else
      processChunks hf (lookup ++ [(nodeKey hf p, LoadState.Pending)]) (tasks ++ [p]) rest

/-- The coordinator loop of `Parsed::try_init`.  `tasks` is the multiset
of dispatched parse tasks whose results are still outstanding (the
`balance` counter of the source is `tasks.length`); parser workers are
pure, so receiving the next completed result is modeled by `sched`
choosing which outstanding task's result arrives next.  Each received
node has its include chunks processed and is then marked `Loaded`; the
first error result aborts the run.  `none` means the fuel ran out. -/
def runLoaderGo (hf : List Char → Key) (fs : FileSys) (sp : SearchPaths)
    (sched : Nat → Nat) : Nat → Nat → Lookup → List (List Char) →
    Option (Except Err Lookup)
  | _, _, lookup, [] => some (.ok lookup)
  | 0, _, _, _ :: _ => none
  | fuel + 1, step, lookup, t :: ts =>
    let tasks := t :: ts
    let i := sched step % tasks.length
    let path := tasks.getD i []
    let tasks' := tasks.eraseIdx i
    match parseNodeM hf fs sp path with
    | none => none
    | some (.error e) => some (.error e)
    | some (.ok node) =>
      let lt := processChunks hf lookup tasks' node.chunk_buffer
      runLoaderGo hf fs sp sched fuel (step + 1)
        (upsertA lt.1 node.key (LoadState.Loaded node)) lt.2

/-- `Parsed::try_init`: canonicalize the entry point, insert its key as
`Pending`, dispatch its parse as the first task, and run the coordinator
loop. -/
def runLoader (hf : List Char → Key) (fs : FileSys) (sp : SearchPaths)
    (entry : List Char) (sched : Nat → Nat) (fuel : Nat) :
    Option (Except Err Lookup) :=
  let rootPath := fs.canon entry
  runLoaderGo hf fs sp sched fuel 0 [(nodeKey hf rootPath, LoadState.Pending)] [rootPath]

/-- The events recorded by the instrumented flattening writer: a
source-mapped text emission (tagged with the emitting node's key), the
newline inserted when returning to an includer, a descent into an
included node, and a once-guard suppression. -/
inductive Event where
  | EmitText (k : Key) (text : List Char)
  | EmitNl
  | Enter (k : Key)
  | Skip (k : Key)
deriving DecidableEq, Repr

/-- `&self.source[range]`: the text slice of a text chunk. -/
def extractRange (source : List Char) (a b : Nat) : List Char :=
  (source.drop a).take (b - a)

/-- The traversal state of `Parsed::write`: current node key, cursor into
its chunk list, the explicit stack of (parent key, parent cursor) frames,
and the set of node keys already entered. -/
structure WState where
  cur : Key
  cursor : Nat
  stack : List (Key × Nat)
  seen : List Key
deriving DecidableEq, Repr

/-- `Parsed::get_by_key` composed with `LoadState::loaded`. -/
def getLoaded (L : Lookup) (k : Key) : Option ParsedNode :=
  (lookupA L k).bind LoadState.loaded?

/-- `Parsed::get_by_path`: hash the path and look up by key. -/
def getByPath (hf : List Char → Key) (L : Lookup) (p : List Char) : Option ParsedNode :=
  getLoaded L (nodeKey hf p)

/-- The loop of `Parsed::write`, instrumented with an event trace.  A
text chunk emits its slice and advances; an include chunk looks up the
target node by its canonical path and either skips it (once-guarded and
already seen) or descends after marking it seen; at the end of a node the
writer emits one newline and pops, or terminates when the stack is empty.
`none` models both a missing-node panic (`unwrap`) and fuel exhaustion
(the traversal need not terminate on graphs with un-guarded cycles). -/
def writeGo (hf : List Char → Key) (g : Key → Option ParsedNode) :
    Nat → WState → Option (List Event)
  | 0, _ => none
  | fuel + 1, S =>
    match g S.cur with
    | none => none
    | some node =>
      match node.chunk_buffer.get? S.cursor with
      | some (Chunk.Text a b) =>
        (writeGo hf g fuel { S with cursor := S.cursor + 1 }).map
          (fun tr => Event.EmitText S.cur (extractRange node.source a b) :: tr)
      | some (Chunk.Include p) =>
        match g (nodeKey hf p) with
        | none => none
        | some tgt =>
          if tgt.once ∧ tgt.key ∈ S.seen then
            (writeGo hf g fuel { S with cursor := S.cursor + 1 }).map
              (fun tr => Event.Skip tgt.key :: tr)
          else
            (writeGo hf g fuel
              { cur := nodeKey hf p, cursor := 0,
                stack := (S.cur, S.cursor) :: S.stack, seen := tgt.key :: S.seen }).map
              (fun tr => Event.Enter tgt.key :: tr)
      | none =>
        match S.stack with
        | [] => some []
        | (pk, pc) :: st =>
          (writeGo hf g fuel { cur := pk, cursor := pc + 1, stack := st, seen := S.seen }).map
            (fun tr => Event.EmitNl :: tr)

/-- `Parsed::write` up to the tracking pass: fetch the root node, seed
the seen-set with its key when it is once-guarded, and run the traversal
from (root, 0) with an empty stack. -/
def writeTrace (hf : List Char → Key) (g : Key → Option ParsedNode)
    (rootKey : Key) (fuel : Nat) : Option (List Event) :=
  match g rootKey with
  | none => none
  | some rootNode =>
    writeGo hf g fuel
      { cur := rootKey, cursor := 0, stack := [],
        seen := if rootNode.once then [rootNode.key] else [] }

/-- Does an event touch the node key `k`: a descent into `k` or a
once-guard suppression of `k`? -/
def Event.touches (k : Key) : Event → Bool
  | .Enter j => j = k
  | .Skip j => j = k
  | _ => false

/-- Is an event relevant to node key `k`: a touch of `k`, or a text
emission sourced at `k`? -/
def Event.relevant (k : Key) : Event → Bool
  | .Enter j => j = k
  | .Skip j => j = k
  | .EmitText j _ => j = k
  | _ => false

/-- Graph well-formedness: every stored node's key field equals the key
it is stored under.  This holds for every graph the loader builds (a node
parsed from path `p` is stored under `hash p`, which is its key field). -/
def WFGraph (g : Key → Option ParsedNode) : Prop :=
  ∀ k n, g k = some n → n.key = k

/-- The text an event contributes to the output sink. -/
def Event.textOf : Event → List Char
  | .EmitText _ s => s
  | .EmitNl => ['\n']
  | _ => []

/-- The flattened output text of a traversal trace. -/
def renderTrace (tr : List Event) : List Char := (tr.map Event.textOf).flatten

/-- The tracking pass at the end of `Parsed::write`: every node in the
graph table is reported once, as (canonical path, full source text). -/
def trackedOf (L : Lookup) : List (List Char × List Char) :=
  L.filterMap fun kv => (kv.2.loaded?).map fun n => (n.path, n.source)

/-- `preprocess`: run the loader, then the flattening writer, returning
the output text and the tracking report.  `none` is the fuel/panic
artifact; `some (.error e)` is the propagated `Error`. -/
def preprocessM (hf : List Char → Key) (fs : FileSys) (sp : SearchPaths)
    (entry : List Char) (sched : Nat → Nat) (loaderFuel writerFuel : Nat) :
    Option (Except Err (List Char × List (List Char × List Char))) :=
  match runLoader hf fs sp entry sched loaderFuel with
  | none => none
  | some (.error e) => some (.error e)
  | some (.ok L) =>
    match writeTrace hf (getLoaded L) (nodeKey hf (fs.canon entry)) writerFuel with
    | none => none
    | some tr => some (.ok (renderTrace tr, trackedOf L))

/-- The canonical files reachable from the entry node through include
chunks: the entry itself, plus the target of every include chunk of every
reachable file that parses successfully. -/
inductive Reachable (hf : List Char → Key) (fs : FileSys) (sp : SearchPaths)
    (root : List Char) : List Char → Prop where
  | root : Reachable hf fs sp root root
  | step {p q : List Char} {n : ParsedNode} :
      Reachable hf fs sp root p → parseNodeM hf fs sp p = some (.ok n) →
      Chunk.Include q ∈ n.chunk_buffer → Reachable hf fs sp root q

/-- Claim C2 exactly as stated, as a predicate on the hash parameter:
for every successful run, the set of paths passed to the tracking sink
equals exactly the set of canonical files reachable from the entry
point. -/
def ClaimTrackingExact (hf : List Char → Key) : Prop :=
  ∀ (fs : FileSys) (sp : SearchPaths) (entry : List Char) (sched : Nat → Nat)
    (lf wf : Nat) (out : List Char) (tracked : List (List Char × List Char)),
    preprocessM hf fs sp entry sched lf wf = some (.ok (out, tracked)) →
    ∀ p, (∃ s, (p, s) ∈ tracked) ↔ Reachable hf fs sp (fs.canon entry) p

/-- Claim C8's injectivity assertion, as a predicate on the hash
parameter: the identity-key derivation never collides on two distinct
canonical paths, so a lookup by path never returns the node of a
different path. -/
def ClaimKeyInjective (hf : List Char → Key) : Prop :=
  ∀ p q : List Char, p ≠ q → nodeKey hf p ≠ nodeKey hf q

/-- Claim C6 exactly as stated, as a predicate on the hash parameter:
for every file containing no include directives, preprocessing that file
as the entry point produces output byte-for-byte identical to the file's
contents. -/
def ClaimIdentityNoIncludes (hf : List Char → Key) : Prop :=
  ∀ (fs : FileSys) (sp : SearchPaths) (entry : List Char) (sched : Nat → Nat)
    (lf wf : Nat) (source out : List Char)
    (tracked : List (List Char × List Char)) (node : ParsedNode),
    lookupA fs.files (fs.canon entry) = some source →
    parseNodeM hf fs sp (fs.canon entry) = some (.ok node) →
    (∀ q, Chunk.Include q ∉ node.chunk_buffer) →
    preprocessM hf fs sp entry sched lf wf = some (.ok (out, tracked)) →
    out = source

/-! ### Witness fixtures

Concrete objects used only to instantiate witness theorems. -/

/-- A concrete stand-in for the hash parameter, used only in witnesses
(any function of the right type may instantiate `hf`). -/
def hfW : List Char → Key := fun p =>
  ⟨(p.foldl (fun h c => h * 256 + c.toNat) 0) % 2 ^ 64, Nat.mod_lt _ (by norm_num)⟩

/-- Build a model file system from a literal list of (path, contents)
pairs: every listed path is both a raw file and a canonical readable
file, and canonicalization is the identity. -/
def mkFS (l : List (String × String)) : FileSys :=
  { files := l.map fun x => (toChars x.1, toChars x.2)
    rawFiles := fun p => (l.map fun x => toChars x.1).contains p
    canon := id }

/-- Empty search paths. -/
def spEmpty : SearchPaths := ⟨[], []⟩

/-- The serial (worker-pool size 1, FIFO channel) schedule. -/
def schedFifo : Nat → Nat := fun _ => 0

/-! ### Collision scenario

A family of file systems indexed by two natural numbers, used to refute
claim C2 for every possible 64-bit hash function: the entry file `D/E`
is once-guarded and includes the two distinct files `D/aa…a` (`n+1`
letters) and `D/aa…a` (`m+1` letters). -/

/-- The include target `aa…a` with `j + 1` letters. -/
def aTar (j : Nat) : List Char := List.replicate (j + 1) 'a'

/-- The canonical path `D/aa…a`. -/
def dPath (j : Nat) : List Char := 'D' :: '/' :: aTar j

/-- The entry path `D/E` of the collision scenario. -/
def entryC2 : List Char := toChars "D/E"

/-- One `#include "aa…a"` line. -/
def incLine (j : Nat) : List Char :=
  '#' :: 'i' :: 'n' :: 'c' :: 'l' :: 'u' :: 'd' :: 'e' :: ' ' :: '"' ::
    (aTar j ++ ('"' :: '\n' :: []))

/-- The entry file's source: `#pragma once` followed by the two include
lines. -/
def srcC2 (n m : Nat) : List Char := toChars "#pragma once\n" ++ (incLine n ++ incLine m)

/-- The collision-scenario file system. -/
def fsC2 (n m : Nat) : FileSys :=
  { files := [(entryC2, srcC2 n m), (dPath n, []), (dPath m, [])]
    rawFiles := fun p =>
      decide (p = dPath n) || decide (p = dPath m) || decide (p = entryC2)
    canon := id }

/-- The parsed entry node of the collision scenario. -/
def nodeEC2 (hf : List Char → Key) (n m : Nat) : ParsedNode :=
  { path := entryC2, key := nodeKey hf entryC2, once := true, source := srcC2 n m,
    chunk_buffer := [Chunk.Include (dPath n), Chunk.Include (dPath m)] }

/-- The parsed node of an (empty) included file of the collision
scenario. -/
def nodePC2 (hf : List Char → Key) (j : Nat) : ParsedNode :=
  { path := dPath j, key := nodeKey hf (dPath j), once := false, source := [],
    chunk_buffer := [] }

/-- Witness node `A`: the entry file, including `D` twice. -/
def nodeAW : ParsedNode :=
  { path := toChars "A", key := hfW (toChars "A"), once := false, source := [],
    chunk_buffer := [Chunk.Include (toChars "D"), Chunk.Include (toChars "D")] }

/-- Witness node `D`: a once-guarded one-character file. -/
def nodeDW : ParsedNode :=
  { path := toChars "D", key := hfW (toChars "D"), once := true, source := toChars "X",
    chunk_buffer := [Chunk.Text 0 1] }

/-- Witness graph: `A` includes the once-guarded `D` twice. -/
def c1LookupW : Lookup :=
  [(nodeKey hfW (toChars "A"), .Loaded nodeAW), (nodeKey hfW (toChars "D"), .Loaded nodeDW)]


/-- Single-file witness system: one entry file `E` whose contents are
plain text. -/
def fsW9 : FileSys := mkFS [("E", "hi\n")]

/-- The node the parser produces for `E` in `fsW9`, for an arbitrary
hash function `hf`. -/
def nodeE9 (hf : List Char → Key) : ParsedNode :=
  { path := toChars "E", key := nodeKey hf (toChars "E"), once := false,
    source := toChars "hi\n", chunk_buffer := [Chunk.Text 0 3] }


/-- A model hash function realizing a key collision between two include
targets: the three structural files of the schedule-dependence scenario
get the distinct keys 1, 2 and 3, and every other path — in particular
both `D/X` and `D/Y` — gets key 0. -/
def hfC9 : List Char → Key := fun p =>
  if p = toChars "D/E" then ⟨1, by norm_num⟩
  else if p = toChars "D/A" then ⟨2, by norm_num⟩
  else if p = toChars "D/B" then ⟨3, by norm_num⟩
  else ⟨0, by norm_num⟩

/-- The schedule-dependence scenario: the entry `D/E` includes `A` and
`B`; `A` includes `X` and `B` includes `Y`; `X` and `Y` exist with
different one-line contents.  Under `hfC9` the keys of `D/X` and `D/Y`
collide, so whichever of the parse results of `A` and `B` is received
first determines which of `X`, `Y` is dispatched, loaded under the
shared key, and later emitted at both include sites. -/
def fsC9 : FileSys := mkFS
  [("D/E", "#include \"A\"\n#include \"B\"\n"),
   ("D/A", "#include \"X\"\n"),
   ("D/B", "#include \"Y\"\n"),
   ("D/X", "x\n"),
   ("D/Y", "y\n")]

/-- The schedule that always receives the later of two outstanding parse
results first. -/
def schedSecond : Nat → Nat := fun _ => 1

end IPP


/-! ## Theorems

Helper lemmas about the grammar combinators, followed by the claim
theorems. -/

namespace LineParser

theorem tagP_eq_append : ∀ {pat inp r : List Char}, tagP pat inp = some r → inp = pat ++ r := by
  intro pat
  induction pat with
  | nil => intro inp r h; simpa [tagP] using h
  | cons p ps ih =>
    intro inp r h
    cases inp with
    | nil => simp [tagP] at h
    | cons c cs =>
      simp only [tagP] at h
      split at h
      · next hc => simp [hc, ih h]
      · exact absurd h (by simp)

theorem charP_eq {x : Char} {inp r : List Char} (h : charP x inp = some r) : inp = x :: r := by
  cases inp with
  | nil => simp [charP] at h
  | cons c cs =>
    simp only [charP] at h
    split at h
    · next hc =>
      obtain rfl : cs = r := by simpa using h
      simp [hc]
    · exact absurd h (by simp)

theorem space0P_suffix : ∀ inp : List Char, ∃ pre, inp = pre ++ space0P inp := by
  intro inp
  induction inp with
  | nil => exact ⟨[], rfl⟩
  | cons c cs ih =>
    by_cases hc : isSpaceTab c
    · obtain ⟨pre, hpre⟩ := ih
      refine ⟨c :: pre, ?_⟩
      have hs : space0P (c :: cs) = space0P cs := by simp [space0P, hc]
      rw [hs, List.cons_append, ← hpre]
    · exact ⟨[], by simp [space0P, hc]⟩

theorem space1P_suffix {inp r : List Char} (h : space1P inp = some r) :
    ∃ pre, inp = pre ++ r := by
  cases inp with
  | nil => simp [space1P] at h
  | cons c cs =>
    simp only [space1P] at h
    split at h
    · obtain rfl : space0P cs = r := by simpa using h
      obtain ⟨pre, hpre⟩ := space0P_suffix cs
      exact ⟨c :: pre, by rw [List.cons_append, ← hpre]⟩
    · exact absurd h (by simp)

theorem isNotP_eq_append :
    ∀ {bad inp rem consumed : List Char}, isNotP bad inp = some (rem, consumed) →
      inp = consumed ++ rem := by
  intro bad inp
  induction inp with
  | nil => intro rem consumed h; simp [isNotP] at h
  | cons c cs ih =>
    intro rem consumed h
    simp only [isNotP] at h
    split at h
    · exact absurd h (by simp)
    · cases hrec : isNotP bad cs with
      | some p =>
        obtain ⟨rem0, consumed0⟩ := p
        rw [hrec] at h
        simp only [Option.some.injEq, Prod.mk.injEq] at h
        obtain ⟨rfl, rfl⟩ := h
        simpa using ih hrec
      | none =>
        rw [hrec] at h
        simp only [Option.some.injEq, Prod.mk.injEq] at h
        obtain ⟨rfl, rfl⟩ := h
        simp

theorem lineEndingP_cases {inp r : List Char} (h : lineEndingP inp = some r) :
    inp = '\n' :: r ∨ inp = '\r' :: '\n' :: r := by
  cases inp with
  | nil => simp [lineEndingP] at h
  | cons c cs =>
    simp only [lineEndingP] at h
    split at h
    · next hc =>
      obtain rfl : cs = r := by simpa using h
      left; simp [hc]
    · next hc =>
      split at h
      · next hc2 =>
        cases cs with
        | nil => simp at h
        | cons c2 r2 =>
          simp only [] at h
          split at h
          · next hc3 =>
            obtain rfl : r2 = r := by simpa using h
            right; simp [hc2, hc3]
          · exact absurd h (by simp)
      · exact absurd h (by simp)

theorem anglePathP_suffix {inp r : List Char} {ip : IncludePath}
    (h : anglePathP inp = some (r, ip)) : ∃ pre, inp = pre ++ r := by
  unfold anglePathP at h
  split at h
  · exact absurd h (by simp)
  · next r1 h1 =>
    split at h
    · exact absurd h (by simp)
    · next r2 target h2 =>
      split at h
      · exact absurd h (by simp)
      · next rem h3 =>
        simp only [Option.some.injEq, Prod.mk.injEq] at h
        obtain ⟨rfl, rfl⟩ := h
        refine ⟨'<' :: target ++ ['>'], ?_⟩
        rw [charP_eq h1, isNotP_eq_append h2, charP_eq h3]
        simp

theorem quotePathP_suffix {inp r : List Char} {ip : IncludePath}
    (h : quotePathP inp = some (r, ip)) : ∃ pre, inp = pre ++ r := by
  unfold quotePathP at h
  split at h
  · exact absurd h (by simp)
  · next r1 h1 =>
    split at h
    · exact absurd h (by simp)
    · next r2 target h2 =>
      split at h
      · exact absurd h (by simp)
      · next rem h3 =>
        simp only [Option.some.injEq, Prod.mk.injEq] at h
        obtain ⟨rfl, rfl⟩ := h
        refine ⟨'"' :: target ++ ['"'], ?_⟩
        rw [charP_eq h1, isNotP_eq_append h2, charP_eq h3]
        simp

theorem includePathP_suffix {inp r : List Char} {ip : IncludePath}
    (h : includePathP inp = some (r, ip)) : ∃ pre, inp = pre ++ r := by
  unfold includePathP at h
  cases h1 : anglePathP inp with
  | some p =>
    rw [h1] at h
    simp only [Option.orElse] at h
    obtain rfl : p = (r, ip) := by simpa using h
    exact anglePathP_suffix h1
  | none =>
    rw [h1] at h
    simp only [Option.orElse] at h
    exact quotePathP_suffix h


theorem notLineEndingP_suffix :
    ∀ {inp rem1 : List Char}, notLineEndingP inp = some rem1 → ∃ pre, inp = pre ++ rem1 := by
  intro inp
  induction inp with
  | nil => intro rem1 h; exact ⟨[], by simpa [notLineEndingP] using h.symm⟩
  | cons c cs ih =>
    intro rem1 h
    simp only [notLineEndingP] at h
    split at h
    · obtain rfl : c :: cs = rem1 := by simpa using h
      exact ⟨[], rfl⟩
    · split at h
      · split at h
        · obtain rfl : c :: cs = rem1 := by simpa using h
          exact ⟨[], rfl⟩
        · exact absurd h (by simp)
      · obtain ⟨pre, hpre⟩ := ih h
        exact ⟨c :: pre, by rw [List.cons_append, ← hpre]⟩

theorem notLineEndingP_stop :
    ∀ {inp rem1 : List Char}, notLineEndingP inp = some rem1 →
      rem1 = [] ∨ (∃ cs, rem1 = '\n' :: cs) ∨ ∃ cs, rem1 = '\r' :: '\n' :: cs := by
  intro inp
  induction inp with
  | nil => intro rem1 h; left; simpa [notLineEndingP] using h.symm
  | cons c cs ih =>
    intro rem1 h
    simp only [notLineEndingP] at h
    split at h
    · next hc =>
      obtain rfl : c :: cs = rem1 := by simpa using h
      exact Or.inr (Or.inl ⟨cs, by rw [hc]⟩)
    · next hc =>
      split at h
      · next hr =>
        split at h
        · next hhead =>
          obtain rfl : c :: cs = rem1 := by simpa using h
          obtain ⟨t, rfl⟩ : ∃ t, cs = '\n' :: t := by
            cases cs with
            | nil => simp at hhead
            | cons x xs => exact ⟨xs, by simpa using congrArg (List.cons · xs) (by simpa using hhead)⟩
          exact Or.inr (Or.inr ⟨t, by rw [hr]⟩)
        · exact absurd h (by simp)
      · exact ih h

theorem lineTextP_spec {inp rem : List Char} {l : Line}
    (h : lineTextP inp = some (rem, l)) :
    l = Line.Text ∧ ∃ rem1, notLineEndingP inp = some rem1 ∧
      rem = (lineEndingP rem1).getD rem1 := by
  simp only [lineTextP] at h
  split at h
  · exact absurd h (by simp)
  · split at h
    · next rem1 hnle =>
      split at h
      · next rem2 hle =>
        simp only [Option.some.injEq, Prod.mk.injEq] at h
        obtain ⟨rfl, rfl⟩ := h
        exact ⟨rfl, rem1, hnle, by simp [hle]⟩
      · next hle =>
        simp only [Option.some.injEq, Prod.mk.injEq] at h
        obtain ⟨rfl, rfl⟩ := h
        exact ⟨rfl, rem1, hnle, by simp [hle]⟩
    · exact absurd h (by simp)

theorem linePragmaOnceP_spec {inp rem : List Char} {l : Line}
    (h : linePragmaOnceP inp = some (rem, l)) :
    l = Line.PragmaOnce ∧ ∃ pre, inp = pre ++ '\n' :: rem ∨ inp = pre ++ '\r' :: '\n' :: rem := by
  unfold linePragmaOnceP at h
  split at h
  · exact absurd h (by simp)
  · next r1 h1 =>
    split at h
    · exact absurd h (by simp)
    · next r2 h2 =>
      split at h
      · exact absurd h (by simp)
      · next r3 h3 =>
        split at h
        · exact absurd h (by simp)
        · next rem0 h4 =>
          simp only [Option.some.injEq, Prod.mk.injEq] at h
          obtain ⟨rfl, rfl⟩ := h
          refine ⟨rfl, ?_⟩
          obtain ⟨p2, hp2⟩ := space1P_suffix h2
          obtain ⟨p4, hp4⟩ := space0P_suffix r3
          rcases lineEndingP_cases h4 with h5 | h5
          · refine ⟨toChars "#pragma" ++ p2 ++ toChars "once" ++ p4, Or.inl ?_⟩
            have hr3 : r3 = p4 ++ '\n' :: rem0 := by rw [hp4, h5]
            rw [tagP_eq_append h1, hp2, tagP_eq_append h3, hr3]
            simp
          · refine ⟨toChars "#pragma" ++ p2 ++ toChars "once" ++ p4, Or.inr ?_⟩
            have hr3 : r3 = p4 ++ '\r' :: '\n' :: rem0 := by rw [hp4, h5]
            rw [tagP_eq_append h1, hp2, tagP_eq_append h3, hr3]
            simp

theorem lineIncludeP_spec {inp rem : List Char} {l : Line}
    (h : lineIncludeP inp = some (rem, l)) :
    (∃ ip, l = Line.Include ip) ∧
      ∃ pre, inp = pre ++ '\n' :: rem ∨ inp = pre ++ '\r' :: '\n' :: rem := by
  unfold lineIncludeP at h
  split at h
  · exact absurd h (by simp)
  · next r1 h1 =>
    split at h
    · exact absurd h (by simp)
    · next r2 h2 =>
      split at h
      · exact absurd h (by simp)
      · next r3 ip h3 =>
        split at h
        · exact absurd h (by simp)
        · next rem0 h4 =>
          simp only [Option.some.injEq, Prod.mk.injEq] at h
          obtain ⟨rfl, rfl⟩ := h
          refine ⟨⟨ip, rfl⟩, ?_⟩
          obtain ⟨p2, hp2⟩ := space1P_suffix h2
          obtain ⟨p3, hp3⟩ := includePathP_suffix h3
          obtain ⟨p4, hp4⟩ := space0P_suffix r3
          rcases lineEndingP_cases h4 with h5 | h5
          · refine ⟨toChars "#include" ++ p2 ++ p3 ++ p4, Or.inl ?_⟩
            have hr3 : r3 = p4 ++ '\n' :: rem0 := by rw [hp4, h5]
            rw [tagP_eq_append h1, hp2, hp3, hr3]
            simp
          · refine ⟨toChars "#include" ++ p2 ++ p3 ++ p4, Or.inr ?_⟩
            have hr3 : r3 = p4 ++ '\r' :: '\n' :: rem0 := by rw [hp4, h5]
            rw [tagP_eq_append h1, hp2, hp3, hr3]
            simp

theorem parse_lineP_branches {inp rem : List Char} {l : Line}
    (h : parse_lineP inp = some (rem, l)) :
    linePragmaOnceP inp = some (rem, l) ∨ lineTextP inp = some (rem, l) ∨
      lineIncludeP inp = some (rem, l) := by
  unfold parse_lineP at h
  cases h1 : linePragmaOnceP inp with
  | some p =>
    rw [h1] at h
    simp only [Option.orElse] at h
    obtain rfl : p = (rem, l) := by simpa using h
    exact Or.inl rfl
  | none =>
    rw [h1] at h
    simp only [Option.orElse] at h
    cases h2 : lineTextP inp with
    | some p =>
      rw [h2] at h
      simp only [Option.orElse] at h
      obtain rfl : p = (rem, l) := by simpa using h
      exact Or.inr (Or.inl rfl)
    | none =>
      rw [h2] at h
      simp only [Option.orElse] at h
      exact Or.inr (Or.inr h)

theorem parse_lineP_progress {inp rem : List Char} {l : Line}
    (h0 : inp ≠ []) (h : parse_lineP inp = some (rem, l)) : rem.length < inp.length := by
  rcases parse_lineP_branches h with hp | ht | hi
  · obtain ⟨-, pre, h5 | h5⟩ := linePragmaOnceP_spec hp <;> rw [h5] <;> simp <;> omega
  · obtain ⟨-, rem1, hnle, hrem⟩ := lineTextP_spec ht
    cases hle : lineEndingP rem1 with
    | some rem2 =>
      obtain rfl : rem = rem2 := by rw [hrem, hle]; rfl
      obtain ⟨pre, hpre⟩ := notLineEndingP_suffix hnle
      rcases lineEndingP_cases hle with h5 | h5 <;> rw [hpre, h5] <;> simp <;> omega
    | none =>
      obtain rfl : rem = rem1 := by rw [hrem, hle]; rfl
      rcases notLineEndingP_stop hnle with h5 | ⟨cs, h5⟩ | ⟨cs, h5⟩
      · rw [h5]
        simpa [List.length_pos] using h0
      · rw [h5] at hle; simp [lineEndingP] at hle
      · rw [h5] at hle; simp [lineEndingP] at hle
  · obtain ⟨-, pre, h5 | h5⟩ := lineIncludeP_spec hi <;> rw [h5] <;> simp <;> omega


theorem tagP_self_append : ∀ (pat r : List Char), tagP pat (pat ++ r) = some r := by
  intro pat r
  induction pat with
  | nil => simp [tagP]
  | cons p ps ih => simp [tagP, ih]

/-- C3 counterexample: an `#include` line with an unterminated `<...>` or
`"..."` target, or with an undelimited target, is a parse error (`none`),
not a `Text` line — refuting the claim that such lines fall through to
Text and pass through verbatim. -/
theorem c3_counterexample :
    parse_lineP (toChars "#include <angle_path_unclosed\n") = none
    ∧ parse_lineP (toChars "#include \"quote_path_unclosed\n") = none
    ∧ parse_lineP (toChars "#include undelimited\n") = none
    ∧ ¬ ∃ rem, parse_lineP (toChars "#include <angle_path_unclosed\n") = some (rem, Line.Text) := by
  refine ⟨by decide, by decide, by decide, ?_⟩
  rintro ⟨rem, h⟩
  rw [show parse_lineP (toChars "#include <angle_path_unclosed\n") = none by decide] at h
  exact Option.noConfusion h

/-- C3 (amended): a directive-looking line that does not open with
`#include` followed by whitespace (e.g. `#unknowndirective`,
`#pragma unknown`) falls through to Text, but a line that does open with
`#include` + whitespace is classified exactly as `line_include` classifies
it — so an unterminated `<...>`/`"..."` target or an undelimited target
makes the whole line a parse error rather than Text. -/
theorem c3_malformed_include_error :
    (∀ s r1 r2 : List Char, tagP (toChars "#include") s = some r1 →
      space1P r1 = some r2 → parse_lineP s = lineIncludeP s)
    ∧ parse_lineP (toChars "#unknowndirective\n") = some ([], Line.Text)
    ∧ parse_lineP (toChars "#pragma unknown\n") = some ([], Line.Text)
    ∧ parse_lineP (toChars "#include <angle_path_unclosed\n") = none
    ∧ parse_lineP (toChars "#include \"quote_path_unclosed\n") = none
    ∧ parse_lineP (toChars "#include undelimited\n") = none := by
  refine ⟨?_, by decide, by decide, by decide, by decide, by decide⟩
  intro s r1 r2 hTag hSp
  obtain rfl := tagP_eq_append hTag
  have hprag : linePragmaOnceP (toChars "#include" ++ r1) = none := rfl
  have htext : lineTextP (toChars "#include" ++ r1) = none := by
    simp only [lineTextP, tagP_self_append, hSp, Option.isSome_some, if_true]
  unfold parse_lineP
  rw [hprag, htext]
  simp [Option.orElse]

/-- Closed witness for C3 (amended): a concrete malformed `#include` line
satisfies the hypotheses of the general conjunct. -/
theorem c3_malformed_include_error_witness :
    parse_lineP (toChars "#include <u\n") = lineIncludeP (toChars "#include <u\n") :=
  c3_malformed_include_error.1 _ (toChars " <u\n") (toChars "<u\n") (by decide) (by decide)


/-- C7 counterexample: a well-formed directive on the unterminated final
line of a file is *not* classified as the directive: an unterminated
`#pragma once` falls through to Text, and an unterminated
`#include <a>` is a parse error — refuting the claim that the grammar
still classifies such final lines as the corresponding directive. -/
theorem c7_counterexample :
    parse_lineP (toChars "#pragma once") = some ([], Line.Text)
    ∧ parse_lineP (toChars "#include <a>") = none
    ∧ (¬ ∃ rem, parse_lineP (toChars "#pragma once") = some (rem, Line.PragmaOnce))
    ∧ ¬ ∃ rem ip, parse_lineP (toChars "#include <a>") = some (rem, Line.Include ip) := by
  refine ⟨by decide, by decide, ?_, ?_⟩
  · rintro ⟨rem, h⟩
    rw [show parse_lineP (toChars "#pragma once") = some ([], Line.Text) by decide] at h
    simp at h
  · rintro ⟨rem, ip, h⟩
    rw [show parse_lineP (toChars "#include <a>") = none by decide] at h
    exact Option.noConfusion h

/-- C7 (amended): the grammar recognizes a `#pragma once` or `#include`
directive only when the line is terminated by a line break (`"\n"` or
`"\r\n"`); the unterminated final line of a file is classified as Text if
it is an unterminated `#pragma once`, and is a parse error if it is an
unterminated well-formed `#include`. -/
theorem c7_directive_requires_terminator :
    (∀ (s rem : List Char), parse_lineP s = some (rem, Line.PragmaOnce) →
      ∃ pre, s = pre ++ '\n' :: rem ∨ s = pre ++ '\r' :: '\n' :: rem)
    ∧ (∀ (s rem : List Char) (ip : IncludePath),
        parse_lineP s = some (rem, Line.Include ip) →
        ∃ pre, s = pre ++ '\n' :: rem ∨ s = pre ++ '\r' :: '\n' :: rem)
    ∧ parse_lineP (toChars "#pragma once") = some ([], Line.Text)
    ∧ parse_lineP (toChars "#include <a>") = none
    ∧ parse_lineP (toChars "#pragma once\n") = some ([], Line.PragmaOnce)
    ∧ parse_lineP (toChars "#include <a>\n") =
        some ([], Line.Include (IncludePath.Angle ['a'])) := by
  refine ⟨?_, ?_, by decide, by decide, by decide, by decide⟩
  · intro s rem h
    rcases parse_lineP_branches h with hp | ht | hi
    · exact (linePragmaOnceP_spec hp).2
    · exact absurd (lineTextP_spec ht).1 (by simp)
    · obtain ⟨ip, hip⟩ := (lineIncludeP_spec hi).1
      exact absurd hip (by simp)
  · intro s rem ip h
    rcases parse_lineP_branches h with hp | ht | hi
    · exact absurd (linePragmaOnceP_spec hp).1 (by simp)
    · exact absurd (lineTextP_spec ht).1 (by simp)
    · exact (lineIncludeP_spec hi).2

/-- Closed witness for C7 (amended): the terminator-decomposition
conjuncts applied to concrete terminated directive lines. -/
theorem c7_directive_requires_terminator_witness :
    (∃ pre, toChars "#pragma once\n" = pre ++ '\n' :: ([] : List Char)
      ∨ toChars "#pragma once\n" = pre ++ '\r' :: '\n' :: ([] : List Char))
    ∧ ∃ pre, toChars "#include <a>\n" = pre ++ '\n' :: ([] : List Char)
      ∨ toChars "#include <a>\n" = pre ++ '\r' :: '\n' :: ([] : List Char) :=
  ⟨c7_directive_requires_terminator.1 _ _ (by decide),
   c7_directive_requires_terminator.2.1 _ _ (IncludePath.Angle ['a']) (by decide)⟩

/-- C10: a directive preceded by leading whitespace is not recognized as
a directive: any line whose first character is a space or tab is
classified as Text (consuming through the optional line ending), in
particular whitespace-prefixed `#pragma once` and `#include` lines. -/
theorem c10_leading_whitespace_text :
    (∀ (c : Char) (cs rem1 : List Char), isSpaceTab c = true →
      notLineEndingP (c :: cs) = some rem1 →
      parse_lineP (c :: cs) = some ((lineEndingP rem1).getD rem1, Line.Text))
    ∧ parse_lineP (toChars " #pragma once\n") = some ([], Line.Text)
    ∧ parse_lineP (toChars "\t#include <a>\nrest") = some (toChars "rest", Line.Text)
    ∧ parse_lineP (toChars "  #include \"q\"\n") = some ([], Line.Text) := by
  refine ⟨?_, by decide, by decide, by decide⟩
  intro c cs rem1 hc hnle
  have hcne : ∀ x : Char, x = '#' → ¬ c = x := by
    intro x hx
    rcases (by simpa [isSpaceTab] using hc : c = ' ' ∨ c = '\t') with rfl | rfl <;>
      simp [hx]
  have hprag : linePragmaOnceP (c :: cs) = none := by
    unfold linePragmaOnceP
    have : tagP (toChars "#pragma") (c :: cs) = none := by
      simp [toChars, tagP, hcne '#' rfl]
    rw [this]
  have hTag : tagP (toChars "#include") (c :: cs) = none := by
    simp [toChars, tagP, hcne '#' rfl]
  have htext : lineTextP (c :: cs) =
      some ((lineEndingP rem1).getD rem1, Line.Text) := by
    simp only [lineTextP, hTag, Bool.false_eq_true, if_false, hnle]
    cases hle : lineEndingP rem1 <;> simp [hle]
  unfold parse_lineP
  rw [hprag, htext]
  simp [Option.orElse]

/-- Closed witness for C10: the general whitespace-prefix conjunct applied
to a concrete whitespace-prefixed `#include` line. -/
theorem c10_leading_whitespace_text_witness :
    parse_lineP (' ' :: toChars "#include <a>\n") =
      some ((lineEndingP (toChars "\n")).getD (toChars "\n"), Line.Text) :=
  c10_leading_whitespace_text.1 ' ' (toChars "#include <a>\n") (toChars "\n")
    (by decide) (by decide)

end LineParser

namespace IPP

open LineParser

theorem firstHit_precedence {fs : FileSys} {t : List Char} :
    ∀ (l1 : List (List Char)) (d : List Char) (l2 : List (List Char)),
      (∀ d' ∈ l1, fs.rawFiles (joinPath d' t) = false) →
      fs.rawFiles (joinPath d t) = true →
      firstHit fs t (l1 ++ d :: l2) = some (joinPath d t) := by
  intro l1
  induction l1 with
  | nil => intro d l2 _ hd; simp [firstHit, hd]
  | cons x xs ih =>
    intro d l2 hmiss hd
    have hx : fs.rawFiles (joinPath x t) = false := hmiss x (by simp)
    simp only [List.cons_append, firstHit, hx]
    exact ih d l2 (fun d' hd' => hmiss d' (by simp [hd'])) hd

/-- C4: resolution of a quoted include target tries the including file's
parent directory joined with the target first; only when that is not a
file does it scan the quoted search paths followed by the base paths in
order, and the first directory whose join with the target is a file wins;
the winning path is returned canonicalized.  In particular, when both the
parent directory and a quoted search path contain the target, the
directory-relative file is chosen. -/
theorem c4_quoted_resolution_precedence :
    (∀ (fs : FileSys) (sp : SearchPaths) (inclFrom src t : List Char) (ln : Nat),
      fs.rawFiles (joinPath (parentDir inclFrom) t) = true →
      tryResolveIncludePath fs (.Quote t) (inclFrom, src, ln) sp =
        .ok (fs.canon (joinPath (parentDir inclFrom) t)))
    ∧ ∀ (fs : FileSys) (sp : SearchPaths) (inclFrom src t : List Char) (ln : Nat)
        (l1 : List (List Char)) (d : List Char) (l2 : List (List Char)),
      fs.rawFiles (joinPath (parentDir inclFrom) t) = false →
      sp.quotedPathsChain = l1 ++ d :: l2 →
      (∀ d' ∈ l1, fs.rawFiles (joinPath d' t) = false) →
      fs.rawFiles (joinPath d t) = true →
      tryResolveIncludePath fs (.Quote t) (inclFrom, src, ln) sp =
        .ok (fs.canon (joinPath d t)) := by
  constructor
  · intro fs sp inclFrom src t ln h
    simp [tryResolveIncludePath, h]
  · intro fs sp inclFrom src t ln l1 d l2 hmiss hchain hl1 hd
    simp [tryResolveIncludePath, hmiss, hchain, firstHit_precedence l1 d l2 hl1 hd]

/-- Closed witness for C4: with `d/b.txt` present both next to the
including file `d/a.txt` and in the quoted search directory `q`, the
directory-relative copy wins; and with the parent-directory copy absent,
the first quoted search directory that has the target wins. -/
theorem c4_quoted_resolution_precedence_witness :
    tryResolveIncludePath (mkFS [("d/a.txt", ""), ("d/b.txt", "A"), ("q/b.txt", "B")])
        (.Quote (toChars "b.txt")) (toChars "d/a.txt", [], 7) ⟨[], [toChars "q"]⟩ =
      .ok (toChars "d/b.txt")
    ∧ tryResolveIncludePath (mkFS [("d/a.txt", ""), ("q/b.txt", "B")])
        (.Quote (toChars "b.txt")) (toChars "d/a.txt", [], 7) ⟨[], [toChars "q"]⟩ =
      .ok (toChars "q/b.txt") :=
  ⟨c4_quoted_resolution_precedence.1 _ ⟨[], [toChars "q"]⟩ _ [] _ 7 (by decide),
   c4_quoted_resolution_precedence.2 _ ⟨[], [toChars "q"]⟩ _ [] _ 7 [] (toChars "q") []
     (by decide) (by decide) (by intro d' hd'; simp at hd') (by decide)⟩


theorem tryResolveIncludePath_error {fs : FileSys} {ip : IncludePath}
    {inclFrom : List Char × List Char × Nat} {sp : SearchPaths} {e : Err}
    (h : tryResolveIncludePath fs ip inclFrom sp = .error e) :
    e = .FileNotFound
      { included_path := ip.target, source_file := inclFrom.1,
        source := inclFrom.2.1, line_number := inclFrom.2.2 } := by
  cases ip with
  | Angle t =>
    unfold tryResolveIncludePath at h
    simp only [] at h
    split at h
    · exact absurd h (by simp)
    · simpa [IncludePath.target] using h.symm
  | Quote t =>
    unfold tryResolveIncludePath at h
    simp only [] at h
    split at h
    · exact absurd h (by simp)
    · simpa [IncludePath.target] using h.symm

theorem parseChunksGo_fnf {fs : FileSys} {sp : SearchPaths} {path source : List Char} :
    ∀ (fuel : Nat) (rem : List Char) (ln cs ce : Nat) (chunks : List Chunk) (once : Bool)
      {e : FileNotFoundError},
      parseChunksGo fs sp path source fuel rem ln cs ce chunks once =
        some (.error (.FileNotFound e)) →
      ∃ (j : Nat) (rem1 rem2 : List Char) (ip : IncludePath),
        nthRem j rem = some rem1 ∧ parse_lineP rem1 = some (rem2, Line.Include ip) ∧
        tryResolveIncludePath fs ip (path, source, ln + j) sp =
          .error (.FileNotFound e) ∧
        e.included_path = ip.target ∧ e.source_file = path ∧ e.source = source ∧
        e.line_number = ln + j := by
  intro fuel
  induction fuel with
  | zero =>
    intro rem ln cs ce chunks once e h
    cases rem with
    | nil => simp [parseChunksGo] at h
    | cons c rem0 => simp [parseChunksGo] at h
  | succ fuel ih =>
    intro rem ln cs ce chunks once e h
    cases rem with
    | nil => simp [parseChunksGo] at h
    | cons c rem0 =>
      rw [parseChunksGo] at h
      split at h
      · next heq =>
        exfalso
        simp only [Option.some.injEq] at h
        exact Except.noConfusion h (fun he => by simp at he)
      · next rem' line heq =>
        split at h
        · -- Text line
          obtain ⟨j, rem1, rem2, ip, h1, h2, h3, h4, h5, h6, h7⟩ := ih rem' (ln + 1) _ _ chunks once h
          refine ⟨j + 1, rem1, rem2, ip, ?_, h2, ?_, h4, h5, h6, ?_⟩
          · simpa [nthRem, heq] using h1
          · have : ln + 1 + j = ln + (j + 1) := by omega
            rwa [this] at h3
          · omega
        · -- PragmaOnce line
          obtain ⟨j, rem1, rem2, ip, h1, h2, h3, h4, h5, h6, h7⟩ := ih rem' (ln + 1) _ _ _ true h
          refine ⟨j + 1, rem1, rem2, ip, ?_, h2, ?_, h4, h5, h6, ?_⟩
          · simpa [nthRem, heq] using h1
          · have : ln + 1 + j = ln + (j + 1) := by omega
            rwa [this] at h3
          · omega
        · -- Include line
          next ip =>
          split at h
          · next e' hres =>
            obtain rfl : e' = Err.FileNotFound e := by simpa using h
            obtain rfl : e =
                { included_path := ip.target, source_file := path,
                  source := source, line_number := ln } := by
              simpa using tryResolveIncludePath_error hres
            exact ⟨0, c :: rem0, rem', ip, by simp [nthRem], heq, by simpa using hres,
              rfl, rfl, rfl, by simp⟩
          · next resolved hres =>
            obtain ⟨j, rem1, rem2, ip', h1, h2, h3, h4, h5, h6, h7⟩ :=
              ih rem' (ln + 1) _ _ _ once h
            refine ⟨j + 1, rem1, rem2, ip', ?_, h2, ?_, h4, h5, h6, ?_⟩
            · simpa [nthRem, heq] using h1
            · have : ln + 1 + j = ln + (j + 1) := by omega
              rwa [this] at h3
            · omega

theorem parseNodeM_fnf {hf : List Char → Key} {fs : FileSys} {sp : SearchPaths}
    {p : List Char} {e : FileNotFoundError}
    (h : parseNodeM hf fs sp p = some (.error (.FileNotFound e))) :
    ∃ src : List Char, lookupA fs.files p = some src ∧
      e.source_file = p ∧ e.source = src ∧
      ∃ (j : Nat) (rem1 rem2 : List Char) (ip : IncludePath),
        nthRem j src = some rem1 ∧ parse_lineP rem1 = some (rem2, Line.Include ip) ∧
        e.included_path = ip.target ∧ e.line_number = j ∧
        tryResolveIncludePath fs ip (p, src, j) sp = .error (.FileNotFound e) := by
  unfold parseNodeM at h
  split at h
  · exact absurd h (by simp)
  · next src hsrc =>
    have hgo : parseChunksGo fs sp p src (src.length + 1) src 0 0 0 [] false =
        some (.error (.FileNotFound e)) := by
      cases hg : parseChunksGo fs sp p src (src.length + 1) src 0 0 0 [] false with
      | none => rw [hg] at h; exact absurd h (by simp)
      | some r =>
        rw [hg] at h
        cases r with
        | error e' =>
          obtain rfl : e' = .FileNotFound e := by simpa [Except.map] using h
          rfl
        | ok v => simp [Except.map] at h
    obtain ⟨j, rem1, rem2, ip, h1, h2, h3, h4, h5, h6, h7⟩ :=
      parseChunksGo_fnf _ _ _ _ _ _ _ hgo
    exact ⟨src, hsrc, by simpa using h5, by simpa using h6, j, rem1, rem2, ip, h1, h2, h4,
      by simpa using h7, by simpa using h3⟩

theorem runLoaderGo_error {hf : List Char → Key} {fs : FileSys} {sp : SearchPaths}
    {sched : Nat → Nat} :
    ∀ (fuel step : Nat) (lookup : Lookup) (tasks : List (List Char)) {e : Err},
      runLoaderGo hf fs sp sched fuel step lookup tasks = some (.error e) →
      ∃ p : List Char, parseNodeM hf fs sp p = some (.error e) := by
  intro fuel
  induction fuel with
  | zero =>
    intro step lookup tasks e h
    cases tasks with
    | nil => simp [runLoaderGo] at h
    | cons t ts => simp [runLoaderGo] at h
  | succ fuel ih =>
    intro step lookup tasks e h
    cases tasks with
    | nil => simp [runLoaderGo] at h
    | cons t ts =>
      rw [runLoaderGo] at h
      split at h
      · exact absurd h (by simp)
      · next e' hp =>
        obtain rfl : e' = e := by simpa using h
        exact ⟨_, hp⟩
      · next node hp => exact ih _ _ _ h

/-- C5: whenever `preprocess` fails with a file-not-found error, that
error originates from an include directive of some loaded file whose
target could not be resolved, and it carries exactly the original
unresolved target text, the including file's path, the including file's
full source text, and the 0-based line number of the directive counting
every parsed line of that file. -/
theorem c5_unresolved_include_error
    (hf : List Char → Key) (fs : FileSys) (sp : SearchPaths) (entry : List Char)
    (sched : Nat → Nat) (lf wf : Nat) (e : FileNotFoundError)
    (h : preprocessM hf fs sp entry sched lf wf = some (.error (.FileNotFound e))) :
    ∃ (p src : List Char) (j : Nat) (rem1 rem2 : List Char) (ip : IncludePath),
      lookupA fs.files p = some src ∧
      e.source_file = p ∧ e.source = src ∧ e.line_number = j ∧
      e.included_path = ip.target ∧
      nthRem j src = some rem1 ∧ parse_lineP rem1 = some (rem2, Line.Include ip) ∧
      tryResolveIncludePath fs ip (p, src, j) sp = .error (.FileNotFound e) := by
  unfold preprocessM at h
  split at h
  · exact absurd h (by simp)
  · next e' hload =>
    obtain rfl : e' = .FileNotFound e := by simpa using h
    obtain ⟨p, hp⟩ := runLoaderGo_error _ _ _ _ hload
    obtain ⟨src, hsrc, h1, h2, j, rem1, rem2, ip, h3, h4, h5, h6, h7⟩ := parseNodeM_fnf hp
    exact ⟨p, src, j, rem1, rem2, ip, hsrc, h1, h2, h6, h5, h3, h4, h7⟩
  · next L hload =>
    split at h
    · exact absurd h (by simp)
    · next tr htr => exact absurd h (by simp)

/-- Closed witness for C5: `#include "missing.txt"` on the third line
(0-indexed line 2) of `d/a.txt` yields an error identifying `d/a.txt`,
line 2, and target `missing.txt`. -/
theorem c5_unresolved_include_error_witness :
    (preprocessM hfW (mkFS [("d/a.txt", "x\ny\n#include \"missing.txt\"\n")]) spEmpty
        (toChars "d/a.txt") schedFifo 4 4 =
      some (.error (.FileNotFound
        { included_path := toChars "missing.txt", source_file := toChars "d/a.txt",
          source := toChars "x\ny\n#include \"missing.txt\"\n", line_number := 2 })))
    ∧ ∃ (p src : List Char) (j : Nat) (rem1 rem2 : List Char) (ip : IncludePath),
        lookupA (mkFS [("d/a.txt", "x\ny\n#include \"missing.txt\"\n")]).files p = some src ∧
        (toChars "d/a.txt") = p ∧ (toChars "x\ny\n#include \"missing.txt\"\n") = src ∧
        (2 : Nat) = j ∧ (toChars "missing.txt") = ip.target ∧
        nthRem j src = some rem1 ∧ parse_lineP rem1 = some (rem2, Line.Include ip) ∧
        tryResolveIncludePath (mkFS [("d/a.txt", "x\ny\n#include \"missing.txt\"\n")]) ip
          (p, src, j) spEmpty =
          .error (.FileNotFound
            { included_path := toChars "missing.txt", source_file := toChars "d/a.txt",
              source := toChars "x\ny\n#include \"missing.txt\"\n", line_number := 2 }) := by
  refine ⟨by rfl, ?_⟩
  have := c5_unresolved_include_error hfW
    (mkFS [("d/a.txt", "x\ny\n#include \"missing.txt\"\n")]) spEmpty
    (toChars "d/a.txt") schedFifo 4 4
    { included_path := toChars "missing.txt", source_file := toChars "d/a.txt",
      source := toChars "x\ny\n#include \"missing.txt\"\n", line_number := 2 }
    (by rfl)
  simpa using this


theorem parseChunksGo_allText {fs : FileSys} {sp : SearchPaths} {path source : List Char} :
    ∀ {rem : List Char}, AllText rem →
      ∀ (fuel ln cs ce : Nat) (chunks : List Chunk) (once : Bool),
        rem.length < fuel →
        parseChunksGo fs sp path source fuel rem ln cs ce chunks once =
          some (.ok (chunks ++
            (if cs < (if rem = [] then ce else source.length) then
              [Chunk.Text cs (if rem = [] then ce else source.length)] else []), once)) := by
  intro rem hat
  induction hat with
  | nil => intro fuel ln cs ce chunks once hfuel; simp [parseChunksGo]
  | @step s rem' hline hat' ih =>
    intro fuel ln cs ce chunks once hfuel
    cases s with
    | nil => simp [parseChunksGo]
    | cons c rem0 =>
      cases fuel with
      | zero => omega
      | succ fuel' =>
        have hprog : rem'.length < (c :: rem0).length :=
          parse_lineP_progress (by simp) hline
        have hfuel' : rem'.length < fuel' := by
          simp only [List.length_cons] at hfuel hprog
          omega
        simp only [parseChunksGo, hline]
        rw [ih fuel' (ln + 1) cs (source.length - rem'.length) chunks once hfuel']
        by_cases hrem : rem' = []
        · simp [hrem]
        · simp [hrem]


theorem parseNodeM_ok {hf : List Char → Key} {fs : FileSys} {sp : SearchPaths}
    {p : List Char} {n : ParsedNode} (h : parseNodeM hf fs sp p = some (.ok n)) :
    n.path = p ∧ n.key = nodeKey hf p ∧ lookupA fs.files p = some n.source := by
  unfold parseNodeM at h
  split at h
  · exact absurd h (by simp)
  · next src hsrc =>
    cases hg : parseChunksGo fs sp p src (src.length + 1) src 0 0 0 [] false with
    | none => rw [hg] at h; exact absurd h (by simp)
    | some r =>
      rw [hg] at h
      cases r with
      | error e => simp [Except.map] at h
      | ok co =>
        obtain rfl :
            ({ path := p, key := nodeKey hf p, once := co.2, source := src,
               chunk_buffer := co.1 } : ParsedNode) = n := by
          simpa [Except.map] using h
        exact ⟨rfl, rfl, hsrc⟩

theorem parseNodeM_allText {hf : List Char → Key} {fs : FileSys} {sp : SearchPaths}
    {p src : List Char} (hsrc : lookupA fs.files p = some src) (hat : AllText src) :
    parseNodeM hf fs sp p = some (.ok
      { path := p, key := nodeKey hf p, once := false, source := src,
        chunk_buffer := if 0 < src.length then [Chunk.Text 0 src.length] else [] }) := by
  unfold parseNodeM
  simp only [hsrc]
  rw [parseChunksGo_allText hat (src.length + 1) 0 0 0 [] false (by omega)]
  cases src with
  | nil => simp [Except.map]
  | cons c cs => simp [Except.map]

theorem processChunks_noInc {hf : List Char → Key} :
    ∀ (chunks : List Chunk) (lookup : Lookup) (tasks : List (List Char)),
      (∀ q, Chunk.Include q ∉ chunks) →
      processChunks hf lookup tasks chunks = (lookup, tasks) := by
  intro chunks
  induction chunks with
  | nil => intro _ _ _; rfl
  | cons ch rest ih =>
    intro lookup tasks hni
    cases ch with
    | Text a b =>
      rw [processChunks]
      exact ih _ _ fun q hq => hni q (List.mem_cons_of_mem _ hq)
    | Include p => exact absurd (List.mem_cons_self _ _) (hni p)

theorem runLoaderGo_nil {hf : List Char → Key} {fs : FileSys} {sp : SearchPaths}
    {sched : Nat → Nat} (fuel step : Nat) (lookup : Lookup) :
    runLoaderGo hf fs sp sched fuel step lookup [] = some (.ok lookup) := by
  cases fuel <;> rfl

theorem runLoader_single {hf : List Char → Key} {fs : FileSys} {sp : SearchPaths}
    {entry : List Char} {sched : Nat → Nat} {node : ParsedNode} (lf : Nat)
    (hp : parseNodeM hf fs sp (fs.canon entry) = some (.ok node))
    (hni : ∀ q, Chunk.Include q ∉ node.chunk_buffer) :
    runLoader hf fs sp entry sched (lf + 1) =
      some (.ok [(nodeKey hf (fs.canon entry), LoadState.Loaded node)]) := by
  have hkey : node.key = nodeKey hf (fs.canon entry) := (parseNodeM_ok hp).2.1
  unfold runLoader
  simp only [runLoaderGo, List.length_cons, List.length_nil, Nat.zero_add, Nat.mod_one,
    List.getD_cons_zero, List.eraseIdx_cons_zero, hp,
    processChunks_noInc _ _ _ hni, hkey, upsertA, eq_self_iff_true, if_true]

theorem getLoaded_single (k : Key) (n : ParsedNode) :
    getLoaded [(k, LoadState.Loaded n)] k = some n := by
  simp [getLoaded, lookupA, LoadState.loaded?]

theorem extractRange_full (src : List Char) : extractRange src 0 src.length = src := by
  simp [extractRange]

theorem writeGo_text_only {hf : List Char → Key} {g : Key → Option ParsedNode}
    {k : Key} {node : ParsedNode} (hg : g k = some node)
    (hni : ∀ q, Chunk.Include q ∉ node.chunk_buffer) :
    ∀ (fuel i : Nat) (seen : List Key),
      node.chunk_buffer.length - i < fuel →
      writeGo hf g fuel { cur := k, cursor := i, stack := [], seen := seen } =
        some ((node.chunk_buffer.drop i).filterMap fun ch =>
          match ch with
          | Chunk.Text a b => some (Event.EmitText k (extractRange node.source a b))
          | Chunk.Include _ => none) := by
  intro fuel
  induction fuel with
  | zero => intro i seen h; omega
  | succ fuel ih =>
    intro i seen hfuel
    simp only [writeGo, hg]
    split
    · next a b hch =>
      have hi : i < node.chunk_buffer.length := by
        by_contra hge
        push_neg at hge
        rw [List.get?_eq_getElem?, List.getElem?_eq_none hge] at hch
        exact Option.noConfusion hch
      have hdrop : node.chunk_buffer.drop i = Chunk.Text a b :: node.chunk_buffer.drop (i + 1) := by
        rw [List.drop_eq_getElem_cons hi]
        congr 1
        have h2 := hch
        rw [List.get?_eq_getElem?, List.getElem?_eq_getElem hi] at h2
        simpa using h2
      rw [ih (i + 1) seen (by omega), hdrop]
      simp [List.filterMap_cons]
    · next p hch =>
      exact absurd (List.get?_mem hch) (hni p)
    · next hch =>
      have hlen : node.chunk_buffer.length ≤ i := by
        by_contra hlt
        push_neg at hlt
        rw [List.get?_eq_getElem?, List.getElem?_eq_getElem hlt] at hch
        exact Option.noConfusion hch
      simp [List.drop_eq_nil_of_le hlen]


/-- C6 (amended): for every entry file all of whose lines classify as
Text (no directives and no malformed `#include` lines), preprocessing
succeeds and produces output byte-for-byte identical to the file's
contents, and tracks exactly that one file.  (The claim as stated — for
every file with no include directives — fails because a `#pragma once`
line is consumed by the parser and omitted from the output; see the
counterexample.) -/
theorem c6_all_text_identity (hf : List Char → Key) (fs : FileSys) (sp : SearchPaths)
    (entry : List Char) (sched : Nat → Nat) (lf wf : Nat) {source : List Char}
    (hsrc : lookupA fs.files (fs.canon entry) = some source) (hat : AllText source) :
    preprocessM hf fs sp entry sched (lf + 1) (wf + 2) =
      some (.ok (source, [(fs.canon entry, source)])) := by
  have hnode := @parseNodeM_allText hf fs sp (fs.canon entry) source hsrc hat
  have hni : ∀ q, Chunk.Include q ∉
      (if 0 < source.length then [Chunk.Text 0 source.length] else []) := by
    intro q hq
    by_cases h : 0 < source.length <;> simp [h] at hq
  have hload := @runLoader_single hf fs sp entry sched _ lf hnode hni
  unfold preprocessM
  simp only [hload]
  unfold writeTrace
  simp only [getLoaded_single]
  rw [writeGo_text_only (getLoaded_single _ _) hni (wf + 2) 0 _ (by
    by_cases h : 0 < source.length <;> simp [h])]
  rcases Nat.eq_zero_or_pos source.length with h0 | hpos
  · obtain rfl : source = [] := List.eq_nil_of_length_eq_zero h0
    simp [renderTrace, trackedOf, LoadState.loaded?]
  · simp [hpos, renderTrace, Event.textOf, extractRange_full, trackedOf, LoadState.loaded?]

/-- Closed witness for C6 (amended): a concrete two-line all-text file
round-trips byte-for-byte. -/
theorem c6_all_text_identity_witness :
    preprocessM hfW (mkFS [("E", "hello\nworld\n")]) spEmpty (toChars "E") schedFifo 2 4 =
      some (.ok (toChars "hello\nworld\n", [(toChars "E", toChars "hello\nworld\n")])) :=
  c6_all_text_identity hfW (mkFS [("E", "hello\nworld\n")]) spEmpty (toChars "E")
    schedFifo 1 2 (by rfl)
    (AllText.step (by rfl) (AllText.step (by rfl) AllText.nil))

/-- C6 counterexample: no hash function makes the claim as stated true —
the file `a\n#pragma once\nb\n` contains no include directives, yet its
preprocessed output is `a\nb\n`, not the file's contents (the
`#pragma once` line is consumed and omitted). -/
theorem c6_counterexample : ¬ ∃ hf : List Char → Key, ClaimIdentityNoIncludes hf := by
  rintro ⟨hf, hc⟩
  have hnode : parseNodeM hf (mkFS [("E", "a\n#pragma once\nb\n")]) spEmpty
      ((mkFS [("E", "a\n#pragma once\nb\n")]).canon (toChars "E")) = some (.ok
      { path := toChars "E", key := nodeKey hf (toChars "E"), once := true,
        source := toChars "a\n#pragma once\nb\n",
        chunk_buffer := [Chunk.Text 0 2, Chunk.Text 15 17] }) := rfl
  have hni : ∀ q, Chunk.Include q ∉ [Chunk.Text 0 2, Chunk.Text 15 17] := by
    intro q hq
    simp at hq
  have hload := @runLoader_single hf _ _ _ schedFifo _ 1 hnode hni
  have hout : preprocessM hf (mkFS [("E", "a\n#pragma once\nb\n")]) spEmpty
      (toChars "E") schedFifo 2 4 = some (.ok (toChars "a\nb\n",
        [(toChars "E", toChars "a\n#pragma once\nb\n")])) := by
    unfold preprocessM
    simp only [hload]
    unfold writeTrace
    simp only [getLoaded_single]
    rw [writeGo_text_only (getLoaded_single _ _) hni 4 0 _ (by simp)]
    simp [renderTrace, Event.textOf, extractRange, trackedOf, LoadState.loaded?]
    constructor
  have := hc (mkFS [("E", "a\n#pragma once\nb\n")]) spEmpty (toChars "E") schedFifo 2 4
    (toChars "a\n#pragma once\nb\n") (toChars "a\nb\n")
    [(toChars "E", toChars "a\n#pragma once\nb\n")]
    { path := toChars "E", key := nodeKey hf (toChars "E"), once := true,
      source := toChars "a\n#pragma once\nb\n",
      chunk_buffer := [Chunk.Text 0 2, Chunk.Text 15 17] }
    (by rfl) hnode hni hout
  exact absurd this (by decide)


/-- C8 counterexample: no function into the 64-bit key space is
injective on canonical paths — whatever hash `DefaultHasher` computes,
there exist two distinct canonical paths with the same identity key, so
the key-to-node mapping cannot be exact in principle. -/
theorem c8_counterexample : ¬ ∃ hf : List Char → Key, ClaimKeyInjective hf := by
  rintro ⟨hf, hinj⟩
  have hinj' : Function.Injective fun n : Nat => nodeKey hf (List.replicate n 'a') := by
    intro a b hab
    by_contra hne
    have hrep : List.replicate a 'a' ≠ List.replicate b 'a' := by
      intro h
      exact hne (by simpa using congrArg List.length h)
    exact hinj _ _ hrep hab
  haveI : Finite Nat := Finite.of_injective _ hinj'
  exact not_finite Nat

/-- C8 (amended): the identity key is derived deterministically from the
canonical path, and a lookup by path is exactly a lookup by the path's
key — so two distinct canonical paths whose 64-bit keys collide alias to
the same graph entry (collisions exist for every 64-bit key derivation;
the code accepts this risk rather than excluding it). -/
theorem c8_key_lookup_aliasing :
    (∀ (hf : List Char → Key) (L : Lookup) (p : List Char),
      getByPath hf L p = getLoaded L (nodeKey hf p))
    ∧ ∀ (hf : List Char → Key) (L : Lookup) (p q : List Char),
      nodeKey hf p = nodeKey hf q → getByPath hf L p = getByPath hf L q := by
  constructor
  · intro hf L p
    rfl
  · intro hf L p q h
    unfold getByPath
    rw [h]

/-- Closed witness for C8 (amended): under a constant key derivation the
distinct paths `a` and `b` alias to the same lookup result. -/
theorem c8_key_lookup_aliasing_witness :
    getByPath (fun _ => (⟨0, by norm_num⟩ : Key)) [] (toChars "a") =
      getByPath (fun _ => (⟨0, by norm_num⟩ : Key)) [] (toChars "b") :=
  c8_key_lookup_aliasing.2 _ [] _ _ rfl


theorem map_cons_some {ev : Event} {o : Option (List Event)} {tr : List Event}
    (h : o.map (fun tr => ev :: tr) = some tr) :
    ∃ tr', o = some tr' ∧ tr = ev :: tr' := by
  cases o with
  | none => simp at h
  | some tr' => exact ⟨tr', rfl, by simpa using h.symm⟩

theorem filter_touches_of_relevant (k : Key) (l : List Event) :
    (l.filter (Event.relevant k)).filter (Event.touches k) = l.filter (Event.touches k) := by
  induction l with
  | nil => rfl
  | cons e l ih =>
    cases e with
    | EmitText j s => by_cases hj : j = k <;> simp [Event.relevant, Event.touches, hj, ih]
    | EmitNl => simp [Event.relevant, Event.touches, ih]
    | Enter j => by_cases hj : j = k <;> simp [Event.relevant, Event.touches, hj, ih]
    | Skip j => by_cases hj : j = k <;> simp [Event.relevant, Event.touches, hj, ih]

theorem filter_enter_of_relevant (k : Key) (l : List Event) :
    (l.filter (Event.relevant k)).filter (fun e => e = Event.Enter k) =
      l.filter (fun e => e = Event.Enter k) := by
  induction l with
  | nil => rfl
  | cons e l ih =>
    cases e with
    | EmitText j s => by_cases hj : j = k <;> simp [Event.relevant, hj, ih]
    | EmitNl => simp [Event.relevant, ih]
    | Enter j => by_cases hj : j = k <;> simp [Event.relevant, hj, ih]
    | Skip j => by_cases hj : j = k <;> simp [Event.relevant, hj, ih]

theorem writeGo_once_invariant {hf : List Char → Key} {g : Key → Option ParsedNode}
    {k : Key} {nodek : ParsedNode} (hwf : WFGraph g) (hk : g k = some nodek)
    (honce : nodek.once = true) :
    ∀ (fuel : Nat) (S : WState) (tr : List Event),
      writeGo hf g fuel S = some tr →
      (k ∈ S.seen → ∀ e ∈ tr.filter (Event.touches k), e = Event.Skip k)
      ∧ (k ∉ S.seen → k ≠ S.cur → k ∉ S.stack.map Prod.fst →
          tr.filter (Event.relevant k) = [] ∨
          ∃ t, tr.filter (Event.relevant k) = Event.Enter k :: t ∧
            ∀ e ∈ t.filter (Event.touches k), e = Event.Skip k) := by
  intro fuel
  induction fuel with
  | zero => intro S tr h; simp [writeGo] at h
  | succ fuel ih =>
    intro S tr h
    rw [writeGo] at h
    split at h
    · exact absurd h (by simp)
    · next node hnode =>
      split at h
      · -- text chunk: emit and advance
        next a b hch =>
        obtain ⟨tr', hrec, rfl⟩ := map_cons_some h
        obtain ⟨ih1, ih2⟩ := ih _ _ hrec
        have htch : Event.touches k (Event.EmitText S.cur (extractRange node.source a b)) = false := by
          simp [Event.touches]
        constructor
        · intro hseen
          rw [List.filter_cons_of_neg (by simp [htch])]
          exact ih1 hseen
        · intro hns hnc hnst
          have hrel : Event.relevant k (Event.EmitText S.cur (extractRange node.source a b)) = false := by
            simp [Event.relevant]
            exact fun hh => absurd hh.symm hnc
          rw [List.filter_cons_of_neg (by simp [hrel])]
          exact ih2 hns hnc hnst
      · -- include chunk
        next p hch =>
        split at h
        · exact absurd h (by simp)
        · next tgt htgt =>
          have htgtkey : tgt.key = nodeKey hf p := hwf _ _ htgt
          split at h
          · -- once-guard suppression: skip
            next hcond =>
            obtain ⟨tr', hrec, rfl⟩ := map_cons_some h
            obtain ⟨ih1, ih2⟩ := ih _ _ hrec
            constructor
            · intro hseen
              by_cases hjk : tgt.key = k
              · rw [hjk, List.filter_cons_of_pos (by simp [Event.touches])]
                intro e he
                rcases List.mem_cons.mp he with rfl | he'
                · rfl
                · exact ih1 hseen e he'
              · rw [List.filter_cons_of_neg (by simp [Event.touches, hjk])]
                exact ih1 hseen
            · intro hns hnc hnst
              have hjk : tgt.key ≠ k := by
                intro hjk
                exact hns (hjk ▸ hcond.2)
              rw [List.filter_cons_of_neg (by simp [Event.relevant, hjk])]
              exact ih2 hns hnc hnst
          · -- descend: enter
            next hcond =>
            obtain ⟨tr', hrec, rfl⟩ := map_cons_some h
            constructor
            · intro hseen
              have hjk : tgt.key ≠ k := by
                intro hjk
                apply hcond
                obtain rfl : tgt = nodek := by
                  rw [htgtkey.symm.trans hjk] at htgt
                  exact ((Option.some.injEq _ _).mp (hk.symm.trans htgt)).symm
                exact ⟨honce, hjk ▸ hseen⟩
              rw [List.filter_cons_of_neg (by simp [Event.touches, hjk])]
              exact (ih _ _ hrec).1 (by simp [hseen])
            · intro hns hnc hnst
              by_cases hjk : tgt.key = k
              · -- the unique descent into k itself
                right
                rw [hjk, List.filter_cons_of_pos (by simp [Event.relevant])]
                refine ⟨tr'.filter (Event.relevant k), rfl, ?_⟩
                rw [filter_touches_of_relevant]
                exact (ih _ _ hrec).1 (by simp [hjk])
              · -- descent into a different node
                rw [List.filter_cons_of_neg (by simp [Event.relevant, hjk])]
                refine (ih _ _ hrec).2 ?_ ?_ ?_
                · intro hmem
                  rcases List.mem_cons.mp hmem with h1 | h1
                  · exact hjk h1.symm
                  · exact hns h1
                · intro hcur
                  exact hjk (htgtkey.trans hcur.symm)
                · intro hmem
                  rcases List.mem_cons.mp hmem with h1 | h1
                  · exact hnc h1
                  · exact hnst h1
      · -- end of node: pop or finish
        next hch =>
        split at h
        · -- empty stack: terminate
          obtain rfl : tr = [] := by simpa using h.symm
          exact ⟨fun _ => by simp, fun _ _ _ => Or.inl (by simp)⟩
        · next pk pc st hstack =>
          obtain ⟨tr', hrec, rfl⟩ := map_cons_some h
          obtain ⟨ih1, ih2⟩ := ih _ _ hrec
          constructor
          · intro hseen
            rw [List.filter_cons_of_neg (by simp [Event.touches])]
            exact ih1 hseen
          · intro hns hnc hnst
            rw [hstack, List.map_cons] at hnst
            simp only [List.mem_cons, not_or] at hnst
            rw [List.filter_cons_of_neg (by simp [Event.relevant])]
            exact ih2 hns (by simpa using hnst.1) hnst.2


/-- C1: in every completed traversal of a well-formed graph, a
once-guarded node `k` other than the root is spliced into the output at
most once, exactly at its first-encountered inclusion: among the events
relevant to `k` (descents, suppressions, and text emissions sourced at
`k`), either there are none, or the first is the unique descent into `k`
and every later touch of `k` is a suppression; the number of descents
into `k` is at most one; and a suppressed include chunk advances the
cursor by one without descending and without emitting anything (the tail
of the traversal is exactly the traversal of the cursor-advanced state,
prefixed by the skip marker). -/
theorem c1_once_guard_unique_splice {hf : List Char → Key}
    {g : Key → Option ParsedNode} {rootk : Key} {fuel : Nat} {k : Key}
    {nodek : ParsedNode} {tr : List Event} (hwf : WFGraph g)
    (htr : writeTrace hf g rootk fuel = some tr)
    (hk : g k = some nodek) (honce : nodek.once = true) (hroot : k ≠ rootk) :
    (tr.filter (Event.relevant k) = [] ∨
      ∃ t, tr.filter (Event.relevant k) = Event.Enter k :: t ∧
        ∀ e ∈ t.filter (Event.touches k), e = Event.Skip k)
    ∧ (tr.filter (fun e => e = Event.Enter k)).length ≤ 1
    ∧ ∀ (f : Nat) (S : WState) (node tgt : ParsedNode) (p : List Char),
        g S.cur = some node →
        node.chunk_buffer.get? S.cursor = some (Chunk.Include p) →
        g (nodeKey hf p) = some tgt → tgt.once = true → tgt.key ∈ S.seen →
        writeGo hf g (f + 1) S =
          (writeGo hf g f { S with cursor := S.cursor + 1 }).map
            (fun t => Event.Skip tgt.key :: t) := by
  have hstruct : tr.filter (Event.relevant k) = [] ∨
      ∃ t, tr.filter (Event.relevant k) = Event.Enter k :: t ∧
        ∀ e ∈ t.filter (Event.touches k), e = Event.Skip k := by
    unfold writeTrace at htr
    split at htr
    · exact absurd htr (by simp)
    · next rootNode hroot' =>
      have hrkey : rootNode.key = rootk := hwf _ _ hroot'
      refine (writeGo_once_invariant hwf hk honce fuel _ _ htr).2 ?_ hroot (by simp)
      by_cases ho : rootNode.once <;> simp [ho, hrkey]
      exact hroot
  refine ⟨hstruct, ?_, ?_⟩
  · rcases hstruct with hnil | ⟨t, ht, hsk⟩
    · rw [← filter_enter_of_relevant, hnil]
      simp
    · rw [← filter_enter_of_relevant, ht]
      have htnil : t.filter (fun e => e = Event.Enter k) = [] := by
        rw [List.filter_eq_nil_iff]
        intro e he heq
        have hto : e ∈ t.filter (Event.touches k) := by
          rw [List.mem_filter]
          refine ⟨he, ?_⟩
          obtain rfl : e = Event.Enter k := by simpa using heq
          simp [Event.touches]
        have := hsk e hto
        obtain rfl : e = Event.Enter k := by simpa using heq
        exact Event.noConfusion this
      rw [List.filter_cons_of_pos (by simp), htnil]
      simp
  · intro f S node tgt p hnode hch htgt htonce hmem
    rw [writeGo]
    simp only [hnode, hch, htgt]
    rw [if_pos ⟨htonce, hmem⟩]


theorem c1LookupW_wf : WFGraph (getLoaded c1LookupW) := by
  intro k n h
  simp only [getLoaded, c1LookupW, lookupA] at h
  split_ifs at h with h1 h2
  · obtain rfl : nodeAW = n := by simpa [LoadState.loaded?] using h
    subst h1
    rfl
  · obtain rfl : nodeDW = n := by simpa [LoadState.loaded?] using h
    subst h2
    rfl
  · simp at h

/-- Closed witness for C1: in the concrete graph where `A` includes the
once-guarded node `D` twice, the completed trace contains exactly one
descent into `D`. -/
theorem c1_once_guard_unique_splice_witness :
    ([Event.Enter (nodeKey hfW (toChars "D")),
      Event.EmitText (nodeKey hfW (toChars "D")) (toChars "X"),
      Event.EmitNl, Event.Skip (nodeKey hfW (toChars "D"))].filter
        (fun e => e = Event.Enter (nodeKey hfW (toChars "D")))).length ≤ 1 :=
  (@c1_once_guard_unique_splice hfW (getLoaded c1LookupW) (nodeKey hfW (toChars "A"))
    10 (nodeKey hfW (toChars "D")) nodeDW
    [Event.Enter (nodeKey hfW (toChars "D")),
      Event.EmitText (nodeKey hfW (toChars "D")) (toChars "X"),
      Event.EmitNl, Event.Skip (nodeKey hfW (toChars "D"))] c1LookupW_wf
    (by rfl) (by rfl) (by rfl) (by decide)).2.1


theorem lookupA_cons {α β : Type} [DecidableEq α] (a : α) (v : β) (l : List (α × β)) (k : α) :
    lookupA ((a, v) :: l) k = if k = a then some v else lookupA l k := rfl

theorem lookupA_append {α β : Type} [DecidableEq α] :
    ∀ (l1 l2 : List (α × β)) (k : α),
      lookupA (l1 ++ l2) k =
        match lookupA l1 k with
        | some v => some v
        | none => lookupA l2 k := by
  intro l1
  induction l1 with
  | nil => intro l2 k; rfl
  | cons kv rest ih =>
    intro l2 k
    obtain ⟨a, v⟩ := kv
    by_cases hk : k = a
    · simp [lookupA_cons, hk]
    · simp [lookupA_cons, hk, ih]

theorem lookupA_mem {α β : Type} [DecidableEq α] :
    ∀ {l : List (α × β)} {k : α} {v : β}, lookupA l k = some v → (k, v) ∈ l := by
  intro l
  induction l with
  | nil => intro k v h; simp [lookupA] at h
  | cons kv rest ih =>
    intro k v h
    obtain ⟨a, w⟩ := kv
    rw [lookupA_cons] at h
    split_ifs at h with hk
    · obtain rfl : w = v := by simpa using h
      subst hk
      simp
    · exact List.mem_cons_of_mem _ (ih h)

theorem mem_lookupA {α β : Type} [DecidableEq α] :
    ∀ {l : List (α × β)} {k : α} {v : β},
      (l.map Prod.fst).Nodup → (k, v) ∈ l → lookupA l k = some v := by
  intro l
  induction l with
  | nil => intro k v _ h; simp at h
  | cons kv rest ih =>
    intro k v hnd hmem
    obtain ⟨a, w⟩ := kv
    rw [List.map_cons, List.nodup_cons] at hnd
    rcases List.mem_cons.mp hmem with h1 | h1
    · obtain ⟨rfl, rfl⟩ : k = a ∧ v = w := by
        constructor <;> [exact congrArg Prod.fst h1; exact congrArg Prod.snd h1]
      simp [lookupA_cons]
    · rw [lookupA_cons]
      split_ifs with hk
      · exfalso
        subst hk
        exact hnd.1 (List.mem_map.mpr ⟨(k, v), h1, rfl⟩)
      · exact ih hnd.2 h1

theorem upsertA_lookup_self {α β : Type} [DecidableEq α] :
    ∀ (l : List (α × β)) (k : α) (v : β), lookupA (upsertA l k v) k = some v := by
  intro l
  induction l with
  | nil => intro k v; simp [upsertA, lookupA_cons]
  | cons kv rest ih =>
    intro k v
    obtain ⟨a, w⟩ := kv
    by_cases hk : k = a
    · simp [upsertA, hk, lookupA_cons]
    · simp [upsertA, hk, lookupA_cons, ih]

theorem upsertA_lookup_ne {α β : Type} [DecidableEq α] :
    ∀ (l : List (α × β)) (k k' : α) (v : β), k' ≠ k →
      lookupA (upsertA l k v) k' = lookupA l k' := by
  intro l
  induction l with
  | nil => intro k k' v hne; simp [upsertA, lookupA_cons, lookupA, hne]
  | cons kv rest ih =>
    intro k k' v hne
    obtain ⟨a, w⟩ := kv
    by_cases hk : k = a
    · subst hk
      simp [upsertA, lookupA_cons, hne]
    · by_cases hk' : k' = a
      · simp [upsertA, hk, lookupA_cons, hk']
      · simp [upsertA, hk, lookupA_cons, hk', ih _ _ _ hne]

theorem upsertA_keys_sub {α β : Type} [DecidableEq α] :
    ∀ (l : List (α × β)) (k : α) (v : β) (x : α),
      x ∈ (upsertA l k v).map Prod.fst → x = k ∨ x ∈ l.map Prod.fst := by
  intro l
  induction l with
  | nil => intro k v x hx; exact Or.inl (by simpa [upsertA] using hx)
  | cons kv rest ih =>
    intro k v x hx
    obtain ⟨a, w⟩ := kv
    by_cases hk : k = a
    · subst hk
      rw [show upsertA ((k, w) :: rest) k v = (k, v) :: rest from by
        simp [upsertA]] at hx
      rw [List.map_cons, List.mem_cons] at hx
      rcases hx with h1 | h1
      · exact Or.inl h1
      · exact Or.inr (by simp [h1])
    · rw [show upsertA ((a, w) :: rest) k v = (a, w) :: upsertA rest k v from by
        simp [upsertA, hk]] at hx
      rw [List.map_cons, List.mem_cons] at hx
      rcases hx with h1 | h1
      · exact Or.inr (by simp [h1])
      · rcases ih k v x h1 with h2 | h2
        · exact Or.inl h2
        · exact Or.inr (by simp [h2])

theorem upsertA_nodup {α β : Type} [DecidableEq α] :
    ∀ (l : List (α × β)) (k : α) (v : β),
      (l.map Prod.fst).Nodup → ((upsertA l k v).map Prod.fst).Nodup := by
  intro l
  induction l with
  | nil => intro k v _; simp [upsertA]
  | cons kv rest ih =>
    intro k v hnd
    obtain ⟨a, w⟩ := kv
    rw [List.map_cons, List.nodup_cons] at hnd
    by_cases hk : k = a
    · subst hk
      rw [show upsertA ((k, w) :: rest) k v = (k, v) :: rest from by
        simp [upsertA]]
      rw [List.map_cons, List.nodup_cons]
      exact hnd
    · rw [show upsertA ((a, w) :: rest) k v = (a, w) :: upsertA rest k v from by
        simp [upsertA, hk]]
      rw [List.map_cons, List.nodup_cons]
      refine ⟨?_, ih k v hnd.2⟩
      intro hmem
      rcases upsertA_keys_sub rest k v a hmem with h1 | h1
      · exact hk h1.symm
      · exact hnd.1 h1

theorem upsertA_isSome {α β : Type} [DecidableEq α]
    (l : List (α × β)) (k k' : α) (v : β) (h : (lookupA l k').isSome) :
    (lookupA (upsertA l k v) k').isSome := by
  by_cases hk : k' = k
  · subst hk
    simp [upsertA_lookup_self]
  · rwa [upsertA_lookup_ne _ _ _ _ hk]

theorem eraseIdx_not_mem_of_nodup {α : Type} [Inhabited α] :
    ∀ (l : List α) (i : Nat), l.Nodup → i < l.length →
      l.getD i default ∉ l.eraseIdx i := by
  intro l
  induction l with
  | nil => intro i _ h; simp at h
  | cons x xs ih =>
    intro i hnd hi
    rw [List.nodup_cons] at hnd
    cases i with
    | zero => simpa [List.getD] using hnd.1
    | succ j =>
      intro hmem
      rw [List.eraseIdx_cons_succ] at hmem
      have hgd : (x :: xs).getD (j + 1) default = xs.getD j default := by
        simp [List.getD]
      rw [hgd] at hmem
      rcases List.mem_cons.mp hmem with h1 | h1
      · have hj : j < xs.length := by simpa using hi
        have hmm : xs.getD j default ∈ xs := by
          rw [List.getD_eq_getElem?_getD, List.getElem?_eq_getElem hj]
          simp [List.getElem_mem hj]
        exact hnd.1 (h1 ▸ hmm)
      · exact ih j hnd.2 (by simpa using hi) h1

theorem mem_eraseIdx_of_ne {α : Type} [Inhabited α] :
    ∀ (l : List α) (i : Nat) (p : α), p ∈ l → i < l.length →
      p ≠ l.getD i default → p ∈ l.eraseIdx i := by
  intro l
  induction l with
  | nil => intro i p h; simp at h
  | cons x xs ih =>
    intro i p hmem hi hne
    cases i with
    | zero =>
      rcases List.mem_cons.mp hmem with rfl | h1
      · exact absurd (by simp [List.getD]) hne
      · simpa using h1
    | succ j =>
      rw [List.eraseIdx_cons_succ]
      rcases List.mem_cons.mp hmem with rfl | h1
      · simp
      · have hj : p ∈ xs.eraseIdx j :=
          ih j p h1 (by simpa using hi) (by simpa [List.getD] using hne)
        exact List.mem_cons_of_mem _ hj


theorem lookupA_none_iff {α β : Type} [DecidableEq α] :
    ∀ {l : List (α × β)} {k : α}, lookupA l k = none ↔ k ∉ l.map Prod.fst := by
  intro l
  induction l with
  | nil => intro k; simp [lookupA]
  | cons kv rest ih =>
    intro k
    obtain ⟨a, w⟩ := kv
    rw [lookupA_cons]
    by_cases hk : k = a
    · simp [hk]
    · simp [hk, ih]

theorem processChunks_preserve {hf : List Char → Key} :
    ∀ (chunks : List Chunk) (lookup : Lookup) (tasks : List (List Char))
      (k : Key) (st : LoadState), lookupA lookup k = some st →
      lookupA (processChunks hf lookup tasks chunks).1 k = some st := by
  intro chunks
  induction chunks with
  | nil => intro lookup tasks k st h; exact h
  | cons ch rest ih =>
    intro lookup tasks k st h
    cases ch with
    | Text a b => rw [processChunks]; exact ih _ _ _ _ h
    | Include p =>
      rw [processChunks]
      split
      · exact ih _ _ _ _ h
      · refine ih _ _ _ _ ?_
        rw [lookupA_append, h]

theorem processChunks_isSome {hf : List Char → Key}
    (chunks : List Chunk) (lookup : Lookup) (tasks : List (List Char))
    (k : Key) (h : (lookupA lookup k).isSome) :
    (lookupA (processChunks hf lookup tasks chunks).1 k).isSome := by
  obtain ⟨st, hst⟩ := Option.isSome_iff_exists.mp h
  rw [processChunks_preserve _ _ _ _ _ hst]
  rfl

theorem processChunks_tasks_preserve {hf : List Char → Key} :
    ∀ (chunks : List Chunk) (lookup : Lookup) (tasks : List (List Char))
      (p : List Char), p ∈ tasks → p ∈ (processChunks hf lookup tasks chunks).2 := by
  intro chunks
  induction chunks with
  | nil => intro lookup tasks p h; exact h
  | cons ch rest ih =>
    intro lookup tasks p h
    cases ch with
    | Text a b => rw [processChunks]; exact ih _ _ _ h
    | Include q =>
      rw [processChunks]
      split
      · exact ih _ _ _ h
      · exact ih _ _ _ (by simp [h])

theorem processChunks_lookup_src {hf : List Char → Key} :
    ∀ (chunks : List Chunk) (lookup : Lookup) (tasks : List (List Char))
      (k : Key) (st : LoadState),
      lookupA (processChunks hf lookup tasks chunks).1 k = some st →
      lookupA lookup k = some st ∨
        (st = .Pending ∧ ∃ q, Chunk.Include q ∈ chunks ∧ nodeKey hf q = k ∧
          q ∈ (processChunks hf lookup tasks chunks).2) := by
  intro chunks
  induction chunks with
  | nil => intro lookup tasks k st h; exact Or.inl h
  | cons ch rest ih =>
    intro lookup tasks k st h
    cases ch with
    | Text a b =>
      rw [processChunks] at h ⊢
      rcases ih _ _ _ _ h with h1 | ⟨h1, q, hq1, hq2, hq3⟩
      · exact Or.inl h1
      · exact Or.inr ⟨h1, q, by simp [hq1], hq2, hq3⟩
    | Include p =>
      rw [processChunks] at h ⊢
      split at h
      · next hpres =>
        rw [if_pos hpres]
        rcases ih _ _ _ _ h with h1 | ⟨h1, q, hq1, hq2, hq3⟩
        · exact Or.inl h1
        · exact Or.inr ⟨h1, q, by simp [hq1], hq2, hq3⟩
      · next habs =>
        rw [if_neg habs]
        rcases ih _ _ _ _ h with h1 | ⟨h1, q, hq1, hq2, hq3⟩
        · rw [lookupA_append] at h1
          split at h1
          · next v hv => exact Or.inl (hv ▸ h1)
          · rw [lookupA_cons] at h1
            split_ifs at h1 with hk
            · obtain rfl : LoadState.Pending = st := by simpa using h1
              refine Or.inr ⟨rfl, p, by simp, hk.symm, ?_⟩
              exact processChunks_tasks_preserve _ _ _ _ (by simp)
            · simp [lookupA] at h1
        · exact Or.inr ⟨h1, q, by simp [hq1], hq2, hq3⟩

theorem processChunks_new_tasks {hf : List Char → Key} :
    ∀ (chunks : List Chunk) (lookup : Lookup) (tasks : List (List Char))
      (p : List Char), p ∈ (processChunks hf lookup tasks chunks).2 →
      p ∈ tasks ∨ (Chunk.Include p ∈ chunks ∧
        lookupA (processChunks hf lookup tasks chunks).1 (nodeKey hf p) = some .Pending ∧
        lookupA lookup (nodeKey hf p) = none) := by
  intro chunks
  induction chunks with
  | nil => intro lookup tasks p h; exact Or.inl h
  | cons ch rest ih =>
    intro lookup tasks p h
    cases ch with
    | Text a b =>
      rw [processChunks] at h ⊢
      rcases ih _ _ _ h with h1 | ⟨h1, h2, h3⟩
      · exact Or.inl h1
      · exact Or.inr ⟨by simp [h1], h2, h3⟩
    | Include q =>
      rw [processChunks] at h ⊢
      split at h
      · next hpres =>
        rw [if_pos hpres]
        rcases ih _ _ _ h with h1 | ⟨h1, h2, h3⟩
        · exact Or.inl h1
        · exact Or.inr ⟨by simp [h1], h2, h3⟩
      · next habs =>
        rw [if_neg habs]
        rcases ih _ _ _ h with h1 | ⟨h1, h2, h3⟩
        · rcases List.mem_append.mp h1 with h2 | h2
          · exact Or.inl h2
          · obtain rfl : p = q := by simpa using h2
            refine Or.inr ⟨by simp, ?_, ?_⟩
            · refine processChunks_preserve _ _ _ _ _ ?_
              rw [lookupA_append]
              rw [show lookupA lookup (nodeKey hf p) = none from
                Option.not_isSome_iff_eq_none.mp habs]
              simp [lookupA_cons]
            · exact Option.not_isSome_iff_eq_none.mp habs
        · refine Or.inr ⟨by simp [h1], h2, ?_⟩
          rw [lookupA_append] at h3
          split at h3
          · next hv => exact Option.noConfusion h3
          · next hnone => exact hnone


theorem processChunks_frontier {hf : List Char → Key} :
    ∀ (chunks : List Chunk) (lookup : Lookup) (tasks : List (List Char))
      (q : List Char), Chunk.Include q ∈ chunks →
      (lookupA (processChunks hf lookup tasks chunks).1 (nodeKey hf q)).isSome := by
  intro chunks
  induction chunks with
  | nil => intro lookup tasks q h; simp at h
  | cons ch rest ih =>
    intro lookup tasks q h
    cases ch with
    | Text a b =>
      rw [processChunks]
      exact ih _ _ _ (by simpa using h)
    | Include p =>
      rw [processChunks]
      rcases List.mem_cons.mp h with h1 | h1
      · obtain rfl : p = q := by simpa using h1.symm
        split
        · next hpres => exact processChunks_isSome _ _ _ _ hpres
        · next habs =>
          refine processChunks_isSome _ _ _ _ ?_
          rw [lookupA_append,
            show lookupA lookup (nodeKey hf p) = none from
              Option.not_isSome_iff_eq_none.mp habs]
          simp [lookupA_cons]
      · split
        · exact ih _ _ _ h1
        · exact ih _ _ _ h1

theorem processChunks_nodup_keys {hf : List Char → Key} :
    ∀ (chunks : List Chunk) (lookup : Lookup) (tasks : List (List Char)),
      (lookup.map Prod.fst).Nodup →
      ((processChunks hf lookup tasks chunks).1.map Prod.fst).Nodup := by
  intro chunks
  induction chunks with
  | nil => intro lookup tasks h; exact h
  | cons ch rest ih =>
    intro lookup tasks h
    cases ch with
    | Text a b => rw [processChunks]; exact ih _ _ h
    | Include p =>
      rw [processChunks]
      split
      · exact ih _ _ h
      · next habs =>
        refine ih _ _ ?_
        rw [List.map_append, List.nodup_append]
        refine ⟨h, by simp, ?_⟩
        intro x hx hx'
        obtain rfl : x = nodeKey hf p := by simpa using hx'
        exact (lookupA_none_iff.mp (Option.not_isSome_iff_eq_none.mp habs)) hx

theorem processChunks_nodup_tasks {hf : List Char → Key} :
    ∀ (chunks : List Chunk) (lookup : Lookup) (tasks : List (List Char)),
      tasks.Nodup → (∀ p ∈ tasks, (lookupA lookup (nodeKey hf p)).isSome) →
      (processChunks hf lookup tasks chunks).2.Nodup := by
  intro chunks
  induction chunks with
  | nil => intro lookup tasks h _; exact h
  | cons ch rest ih =>
    intro lookup tasks h hks
    cases ch with
    | Text a b => rw [processChunks]; exact ih _ _ h hks
    | Include p =>
      rw [processChunks]
      split
      · exact ih _ _ h hks
      · next habs =>
        refine ih _ _ ?_ ?_
        · rw [List.nodup_append]
          refine ⟨h, by simp, ?_⟩
          intro x hx hx'
          obtain rfl : x = p := by simpa using hx'
          exact habs (hks x hx)
        · intro q hq
          rcases List.mem_append.mp hq with h1 | h1
          · rw [lookupA_append]
            obtain ⟨st, hst⟩ := Option.isSome_iff_exists.mp (hks q h1)
            rw [hst]
            rfl
          · obtain rfl : q = p := by simpa using h1
            rw [lookupA_append,
              show lookupA lookup (nodeKey hf q) = none from
                Option.not_isSome_iff_eq_none.mp habs]
            simp [lookupA_cons]


theorem runLoaderGo_invariant {hf : List Char → Key} {fs : FileSys} {sp : SearchPaths}
    {sched : Nat → Nat} {root : List Char}
    (hinj : ∀ p q, Reachable hf fs sp root p → Reachable hf fs sp root q →
      nodeKey hf p = nodeKey hf q → p = q) :
    ∀ (fuel step : Nat) (lookup : Lookup) (tasks : List (List Char)) (L : Lookup),
      runLoaderGo hf fs sp sched fuel step lookup tasks = some (.ok L) →
      (lookup.map Prod.fst).Nodup →
      tasks.Nodup →
      (∀ p ∈ tasks, Reachable hf fs sp root p ∧
        lookupA lookup (nodeKey hf p) = some .Pending) →
      (∀ k, lookupA lookup k = some .Pending → ∃ p ∈ tasks, nodeKey hf p = k) →
      (∀ k n, lookupA lookup k = some (.Loaded n) →
        Reachable hf fs sp root n.path ∧ parseNodeM hf fs sp n.path = some (.ok n) ∧
        k = nodeKey hf n.path) →
      (∀ k n, lookupA lookup k = some (.Loaded n) → ∀ q,
        Chunk.Include q ∈ n.chunk_buffer → (lookupA lookup (nodeKey hf q)).isSome) →
      ((L.map Prod.fst).Nodup
      ∧ (∀ k st, lookupA L k = some st → ∃ n, st = .Loaded n ∧
          Reachable hf fs sp root n.path ∧ parseNodeM hf fs sp n.path = some (.ok n) ∧
          k = nodeKey hf n.path)
      ∧ (∀ k n, lookupA L k = some (.Loaded n) → ∀ q,
          Chunk.Include q ∈ n.chunk_buffer → (lookupA L (nodeKey hf q)).isSome)
      ∧ (∀ k, (lookupA lookup k).isSome → (lookupA L k).isSome)) := by
  intro fuel
  induction fuel with
  | zero =>
    intro step lookup tasks L h hnd hndT h2 h3 h4 h5
    cases tasks with
    | nil =>
      obtain rfl : lookup = L := by simpa [runLoaderGo] using h
      refine ⟨hnd, ?_, h5, fun k hk => hk⟩
      intro k st hst
      cases st with
      | Pending => obtain ⟨p, hp, -⟩ := h3 k hst; simp at hp
      | Loaded n =>
        obtain ⟨ha, hb, hc⟩ := h4 k n hst
        exact ⟨n, rfl, ha, hb, hc⟩
    | cons t ts => simp [runLoaderGo] at h
  | succ fuel ih =>
    intro step lookup tasks L h hnd hndT h2 h3 h4 h5
    cases tasks with
    | nil =>
      obtain rfl : lookup = L := by simpa [runLoaderGo] using h
      refine ⟨hnd, ?_, h5, fun k hk => hk⟩
      intro k st hst
      cases st with
      | Pending => obtain ⟨p, hp, -⟩ := h3 k hst; simp at hp
      | Loaded n =>
        obtain ⟨ha, hb, hc⟩ := h4 k n hst
        exact ⟨n, rfl, ha, hb, hc⟩
    | cons t ts =>
      rw [runLoaderGo] at h
      have hilt : sched step % (t :: ts).length < (t :: ts).length :=
        Nat.mod_lt _ (by simp)
      cases hparse : parseNodeM hf fs sp ((t :: ts).getD (sched step % (t :: ts).length) []) with
      | none =>
        simp only [hparse] at h
        exact Option.noConfusion h
      | some res =>
        simp only [hparse] at h
        cases res with
        | error e => exact absurd h (by simp)
        | ok node =>
          have hmem_path : (t :: ts).getD (sched step % (t :: ts).length) [] ∈ t :: ts := by
            rw [List.getD_eq_getElem?_getD, List.getElem?_eq_getElem hilt]
            simp [List.getElem_mem hilt]
          obtain ⟨hpR, hpPend⟩ := h2 _ hmem_path
          obtain ⟨hnpath, hnkey, -⟩ := parseNodeM_ok hparse
          have hreach_q : ∀ q, Chunk.Include q ∈ node.chunk_buffer →
              Reachable hf fs sp root q := fun q hq => Reachable.step hpR hparse hq
          have hndT' : ((t :: ts).eraseIdx (sched step % (t :: ts).length)).Nodup :=
            hndT.sublist (List.eraseIdx_sublist _ _)
          have htsub : ∀ p, p ∈ (t :: ts).eraseIdx (sched step % (t :: ts).length) →
              p ∈ t :: ts := fun p hp => (List.eraseIdx_sublist _ _).subset hp
          have hpath_not : (t :: ts).getD (sched step % (t :: ts).length) [] ∉
              (t :: ts).eraseIdx (sched step % (t :: ts).length) :=
            eraseIdx_not_mem_of_nodup _ _ hndT hilt
          refine ?_
          have hmain := ih (step + 1) _ _ L h
            (upsertA_nodup _ _ _ (processChunks_nodup_keys _ _ _ hnd))
            (processChunks_nodup_tasks _ _ _ hndT' (by
              intro p hp
              rw [(h2 p (htsub p hp)).2]
              rfl))
            (by
              -- new tasks: reachable and pending
              intro p hp
              rcases processChunks_new_tasks _ _ _ _ hp with hold | ⟨hinc, hpend, hnone⟩
              · obtain ⟨hR, hPend⟩ := h2 p (htsub p hold)
                refine ⟨hR, ?_⟩
                have hkne : nodeKey hf p ≠ node.key := by
                  rw [hnkey]
                  intro hkeq
                  exact hpath_not (hinj _ _ hR hpR hkeq ▸ hold)
                rw [upsertA_lookup_ne _ _ _ _ hkne]
                exact processChunks_preserve _ _ _ _ _ hPend
              · refine ⟨hreach_q p hinc, ?_⟩
                have hkne : nodeKey hf p ≠ node.key := by
                  rw [hnkey]
                  intro hkeq
                  rw [hkeq] at hnone
                  rw [hnone] at hpPend
                  exact Option.noConfusion hpPend
                rw [upsertA_lookup_ne _ _ _ _ hkne]
                exact hpend)
            (by
              -- pending entries correspond to outstanding tasks
              intro k hk
              have hkne : k ≠ node.key := by
                intro hkeq
                rw [hkeq, upsertA_lookup_self] at hk
                exact LoadState.noConfusion ((Option.some.injEq _ _).mp hk)
              rw [upsertA_lookup_ne _ _ _ _ hkne] at hk
              rcases processChunks_lookup_src _ _ _ _ _ hk with hsrc | ⟨-, q, hq1, hq2, hq3⟩
              · obtain ⟨p, hp, hkp⟩ := h3 k hsrc
                have hpne : p ≠ (t :: ts).getD (sched step % (t :: ts).length) [] := by
                  intro rfl'
                  subst rfl'
                  exact hkne (by rw [← hkp, hnkey])
                refine ⟨p, ?_, hkp⟩
                exact processChunks_tasks_preserve _ _ _ _
                  (mem_eraseIdx_of_ne _ _ _ hp hilt hpne)
              · exact ⟨q, hq3, hq2⟩)
            (by
              -- loaded entries are parses of reachable paths
              intro k n hk
              by_cases hkeq : k = node.key
              · subst hkeq
                rw [upsertA_lookup_self] at hk
                obtain rfl : node = n := by simpa using hk
                rw [hnpath]
                exact ⟨hpR, hparse, by rw [hnkey]⟩
              · rw [upsertA_lookup_ne _ _ _ _ hkeq] at hk
                rcases processChunks_lookup_src _ _ _ _ _ hk with hsrc | ⟨hpend, -⟩
                · exact h4 k n hsrc
                · exact absurd hpend (by simp))
            (by
              -- frontier closed in the new lookup
              intro k n hk q hq
              by_cases hkeq : k = node.key
              · subst hkeq
                rw [upsertA_lookup_self] at hk
                obtain rfl : node = n := by simpa using hk
                exact upsertA_isSome _ _ _ _ (processChunks_frontier _ _ _ _ hq)
              · rw [upsertA_lookup_ne _ _ _ _ hkeq] at hk
                rcases processChunks_lookup_src _ _ _ _ _ hk with hsrc | ⟨hpend, -⟩
                · exact upsertA_isSome _ _ _ _
                    (processChunks_isSome _ _ _ _ (h5 k n hsrc q hq))
                · exact absurd hpend (by simp))
          obtain ⟨c1, c2, c3, c4⟩ := hmain
          refine ⟨c1, c2, c3, ?_⟩
          intro k hk
          exact c4 k (upsertA_isSome _ _ _ _ (processChunks_isSome _ _ _ _ hk))


theorem runLoader_characterization {hf : List Char → Key} {fs : FileSys}
    {sp : SearchPaths} {entry : List Char} {sched : Nat → Nat} {fuel : Nat}
    {L : Lookup}
    (hinj : ∀ p q, Reachable hf fs sp (fs.canon entry) p →
      Reachable hf fs sp (fs.canon entry) q → nodeKey hf p = nodeKey hf q → p = q)
    (h : runLoader hf fs sp entry sched fuel = some (.ok L)) :
    (L.map Prod.fst).Nodup
    ∧ (∀ k st, lookupA L k = some st → ∃ n, st = .Loaded n ∧
        Reachable hf fs sp (fs.canon entry) n.path ∧
        parseNodeM hf fs sp n.path = some (.ok n) ∧ k = nodeKey hf n.path)
    ∧ ∀ p, Reachable hf fs sp (fs.canon entry) p →
        ∃ n, parseNodeM hf fs sp p = some (.ok n) ∧
          lookupA L (nodeKey hf p) = some (.Loaded n) := by
  unfold runLoader at h
  have hmain := runLoaderGo_invariant hinj fuel 0
    [(nodeKey hf (fs.canon entry), LoadState.Pending)] [fs.canon entry] L h
    (by simp)
    (by simp)
    (by
      intro p hp
      obtain rfl : p = fs.canon entry := by simpa using hp
      exact ⟨Reachable.root, by simp [lookupA_cons]⟩)
    (by
      intro k hk
      rw [lookupA_cons] at hk
      split_ifs at hk with hkk
      · exact ⟨fs.canon entry, by simp, hkk.symm⟩
      · simp [lookupA] at hk)
    (by
      intro k n hk
      rw [lookupA_cons] at hk
      split_ifs at hk with hkk
      · exact absurd ((Option.some.injEq _ _).mp hk) (by simp)
      · simp [lookupA] at hk)
    (by
      intro k n hk
      rw [lookupA_cons] at hk
      split_ifs at hk with hkk
      · exact absurd ((Option.some.injEq _ _).mp hk) (by simp)
      · simp [lookupA] at hk)
  obtain ⟨c1, c2, c3, c4⟩ := hmain
  refine ⟨c1, c2, ?_⟩
  intro p hp
  induction hp with
  | root =>
    have hsome : (lookupA L (nodeKey hf (fs.canon entry))).isSome :=
      c4 _ (by simp [lookupA_cons])
    obtain ⟨st, hst⟩ := Option.isSome_iff_exists.mp hsome
    obtain ⟨n, rfl, hnR, hnP, hkeq⟩ := c2 _ _ hst
    have hpe : fs.canon entry = n.path := hinj _ _ Reachable.root hnR hkeq
    refine ⟨n, ?_, hst⟩
    rw [hpe]
    exact hnP
  | @step p q n' hpR hpar hq ihp =>
    obtain ⟨n, hnP, hnL⟩ := ihp
    obtain rfl : n' = n := by
      have := hpar.symm.trans hnP
      simpa using this
    have hsome : (lookupA L (nodeKey hf q)).isSome := c3 _ _ hnL q hq
    obtain ⟨st, hst⟩ := Option.isSome_iff_exists.mp hsome
    obtain ⟨m, rfl, hmR, hmP, hkeq⟩ := c2 _ _ hst
    have hqe : q = m.path := hinj _ _ (Reachable.step hpR hpar hq) hmR hkeq
    refine ⟨m, ?_, hst⟩
    rw [hqe]
    exact hmP


theorem writeGo_fuel_mono {hf : List Char → Key} {g : Key → Option ParsedNode} :
    ∀ {f f' : Nat} {S : WState} {tr : List Event},
      writeGo hf g f S = some tr → f ≤ f' → writeGo hf g f' S = some tr := by
  intro f
  induction f with
  | zero => intro f' S tr h; simp [writeGo] at h
  | succ f ih =>
    intro f' S tr h hle
    cases f' with
    | zero => omega
    | succ f'' =>
      have hle'' : f ≤ f'' := by omega
      rw [writeGo] at h ⊢
      cases hcur : g S.cur with
      | none => rw [hcur] at h; exact absurd h (by simp)
      | some node =>
        simp only [hcur] at h ⊢
        cases hch : node.chunk_buffer.get? S.cursor with
        | some ch =>
          cases ch with
          | Text a b =>
            simp only [hch] at h ⊢
            obtain ⟨tr', hrec, rfl⟩ := map_cons_some h
            rw [ih hrec hle'']
            rfl
          | Include p =>
            simp only [hch] at h ⊢
            cases htgt : g (nodeKey hf p) with
            | none => rw [htgt] at h; exact absurd h (by simp)
            | some tgt =>
              simp only [htgt] at h ⊢
              split at h <;> rename_i hcond
              · rw [if_pos hcond]
                obtain ⟨tr', hrec, rfl⟩ := map_cons_some h
                rw [ih hrec hle'']
                rfl
              · rw [if_neg hcond]
                obtain ⟨tr', hrec, rfl⟩ := map_cons_some h
                rw [ih hrec hle'']
                rfl
        | none =>
          simp only [hch] at h ⊢
          cases hst : S.stack with
          | nil => simp only [hst] at h ⊢; exact h
          | cons fr st =>
            obtain ⟨pk, pc⟩ := fr
            simp only [hst] at h ⊢
            obtain ⟨tr', hrec, rfl⟩ := map_cons_some h
            rw [ih hrec hle'']
            rfl

theorem writeTrace_fuel_mono {hf : List Char → Key} {g : Key → Option ParsedNode}
    {rootk : Key} {f f' : Nat} {tr : List Event}
    (h : writeTrace hf g rootk f = some tr) (hle : f ≤ f') :
    writeTrace hf g rootk f' = some tr := by
  unfold writeTrace at h ⊢
  cases hroot : g rootk with
  | none => rw [hroot] at h; exact absurd h (by simp)
  | some rootNode =>
    simp only [hroot] at h ⊢
    exact writeGo_fuel_mono h hle

theorem lookup_eq_of_characterizations {hf : List Char → Key} {fs : FileSys}
    {sp : SearchPaths} {entry : List Char} {L1 L2 : Lookup}
    (hc1 : ∀ k st, lookupA L1 k = some st → ∃ n, st = .Loaded n ∧
      Reachable hf fs sp (fs.canon entry) n.path ∧
      parseNodeM hf fs sp n.path = some (.ok n) ∧ k = nodeKey hf n.path)
    (hc2 : ∀ k st, lookupA L2 k = some st → ∃ n, st = .Loaded n ∧
      Reachable hf fs sp (fs.canon entry) n.path ∧
      parseNodeM hf fs sp n.path = some (.ok n) ∧ k = nodeKey hf n.path)
    (hp1 : ∀ p, Reachable hf fs sp (fs.canon entry) p →
      ∃ n, parseNodeM hf fs sp p = some (.ok n) ∧
        lookupA L1 (nodeKey hf p) = some (.Loaded n))
    (hp2 : ∀ p, Reachable hf fs sp (fs.canon entry) p →
      ∃ n, parseNodeM hf fs sp p = some (.ok n) ∧
        lookupA L2 (nodeKey hf p) = some (.Loaded n)) :
    ∀ k, lookupA L1 k = lookupA L2 k := by
  have main : ∀ (A B : Lookup),
      (∀ k st, lookupA A k = some st → ∃ n, st = .Loaded n ∧
        Reachable hf fs sp (fs.canon entry) n.path ∧
        parseNodeM hf fs sp n.path = some (.ok n) ∧ k = nodeKey hf n.path) →
      (∀ p, Reachable hf fs sp (fs.canon entry) p →
        ∃ n, parseNodeM hf fs sp p = some (.ok n) ∧
          lookupA B (nodeKey hf p) = some (.Loaded n)) →
      ∀ k st, lookupA A k = some st → lookupA B k = some st := by
    intro A B hcA hpB k st hst
    obtain ⟨n, rfl, hnR, hnP, rfl⟩ := hcA _ _ hst
    obtain ⟨n', hn'P, hn'L⟩ := hpB _ hnR
    obtain rfl : n' = n := by simpa using hn'P.symm.trans hnP
    exact hn'L
  intro k
  cases h1 : lookupA L1 k with
  | some st => exact (main L1 L2 hc1 hp2 k st h1).symm ▸ rfl
  | none =>
    cases h2 : lookupA L2 k with
    | none => rfl
    | some st =>
      have := main L2 L1 hc2 hp1 k st h2
      rw [h1] at this
      exact Option.noConfusion this

theorem trackedOf_mem {L : Lookup} {x : List Char × List Char} :
    x ∈ trackedOf L ↔
      ∃ k n, (k, LoadState.Loaded n) ∈ L ∧ x = (n.path, n.source) := by
  unfold trackedOf
  rw [List.mem_filterMap]
  constructor
  · rintro ⟨⟨k, st⟩, hmem, hx⟩
    cases st with
    | Pending => simp [LoadState.loaded?] at hx
    | Loaded n =>
      refine ⟨k, n, hmem, ?_⟩
      simpa [LoadState.loaded?] using hx.symm
  · rintro ⟨k, n, hmem, rfl⟩
    exact ⟨(k, LoadState.Loaded n), hmem, by simp [LoadState.loaded?]⟩

theorem trackedOf_paths_nodup {hf : List Char → Key} :
    ∀ {L : Lookup}, (L.map Prod.fst).Nodup →
      (∀ k n, (k, LoadState.Loaded n) ∈ L → k = nodeKey hf n.path) →
      ((trackedOf L).map Prod.fst).Nodup := by
  intro L
  induction L with
  | nil => intro _ _; simp [trackedOf]
  | cons kv rest ih =>
    intro hnd hchar
    obtain ⟨k, st⟩ := kv
    rw [List.map_cons, List.nodup_cons] at hnd
    cases st with
    | Pending =>
      rw [show trackedOf ((k, LoadState.Pending) :: rest) = trackedOf rest from by
        simp [trackedOf, LoadState.loaded?]]
      exact ih hnd.2 fun k' n' hm => hchar k' n' (List.mem_cons_of_mem _ hm)
    | Loaded n =>
      rw [show trackedOf ((k, LoadState.Loaded n) :: rest) =
          (n.path, n.source) :: trackedOf rest from by
        simp [trackedOf, LoadState.loaded?]]
      rw [List.map_cons, List.nodup_cons]
      refine ⟨?_, ih hnd.2 fun k' n' hm => hchar k' n' (List.mem_cons_of_mem _ hm)⟩
      intro hmem
      obtain ⟨x, hx, hfst⟩ := List.mem_map.mp hmem
      obtain ⟨k2, n2, hmem2, rfl⟩ := trackedOf_mem.mp hx
      have hpath : n.path = n2.path := hfst.symm
      have hk : k = nodeKey hf n.path := hchar k n (by simp)
      have hk2 : k2 = nodeKey hf n2.path :=
        hchar k2 n2 (List.mem_cons_of_mem _ hmem2)
      have : k2 = k := by rw [hk2, hk, hpath]
      subst this
      exact hnd.1 (List.mem_map.mpr ⟨(k2, LoadState.Loaded n2), hmem2, rfl⟩)


theorem preprocessM_ok_inv {hf : List Char → Key} {fs : FileSys} {sp : SearchPaths}
    {entry : List Char} {sched : Nat → Nat} {lf wf : Nat} {out : List Char}
    {tracked : List (List Char × List Char)}
    (h : preprocessM hf fs sp entry sched lf wf = some (.ok (out, tracked))) :
    ∃ L tr, runLoader hf fs sp entry sched lf = some (.ok L) ∧
      writeTrace hf (getLoaded L) (nodeKey hf (fs.canon entry)) wf = some tr ∧
      out = renderTrace tr ∧ tracked = trackedOf L := by
  unfold preprocessM at h
  split at h
  · exact absurd h (by simp)
  · exact absurd h (by simp)
  · next L hL =>
    split at h
    · exact absurd h (by simp)
    · next tr htr =>
      simp only [Option.some.injEq, Except.ok.injEq, Prod.mk.injEq] at h
      exact ⟨L, tr, hL, htr, h.1.symm, h.2.symm⟩

theorem reachable_fsW9 (hf : List Char → Key) :
    ∀ p, Reachable hf fsW9 spEmpty (toChars "E") p → p = toChars "E" := by
  intro p h
  induction h with
  | root => rfl
  | step hr hparse hmem ih =>
    subst ih
    rw [show parseNodeM hf fsW9 spEmpty (toChars "E") = some (Except.ok (nodeE9 hf))
      from rfl] at hparse
    obtain rfl : nodeE9 hf = _ := by simpa using hparse
    simp [nodeE9] at hmem

/-- C9 counterexample: the claim as stated — byte-identical output for
every input graph regardless of the scheduling or completion order of
parse tasks — fails on a key collision.  Under the hash `hfC9`, which
collides the keys of the two include targets `D/X` and `D/Y`, the same
file system and entry yield two successful runs that differ only in the
schedule yet produce different output bytes: the receive order of the
parse results of `A` and `B` determines which of the colliding files is
loaded under the shared key and then emitted at both include sites. -/
theorem c9_counterexample :
    preprocessM hfC9 fsC9 spEmpty (toChars "D/E") schedFifo 5 12 =
      some (.ok (toChars "x\n\n\nx\n\n\n",
        [(toChars "D/E", toChars "#include \"A\"\n#include \"B\"\n"),
         (toChars "D/A", toChars "#include \"X\"\n"),
         (toChars "D/B", toChars "#include \"Y\"\n"),
         (toChars "D/X", toChars "x\n")]))
    ∧ preprocessM hfC9 fsC9 spEmpty (toChars "D/E") schedSecond 5 12 =
      some (.ok (toChars "y\n\n\ny\n\n\n",
        [(toChars "D/E", toChars "#include \"A\"\n#include \"B\"\n"),
         (toChars "D/A", toChars "#include \"X\"\n"),
         (toChars "D/B", toChars "#include \"Y\"\n"),
         (toChars "D/Y", toChars "y\n")]))
    ∧ toChars "x\n\n\nx\n\n\n" ≠ toChars "y\n\n\ny\n\n\n" :=
  ⟨by rfl, by rfl, by decide⟩

/-- C9 (amended): the emitted output does not depend on the scheduling
or completion order of parse tasks as long as no two distinct reachable
canonical files have colliding 64-bit keys.  Under that key-injectivity
hypothesis, any two successful runs of the preprocessor on the same
entry — with arbitrary, possibly different, schedules and fuel budgets —
produce the identical output text and the same set of tracked files. -/
theorem c9_schedule_independence (hf : List Char → Key) (fs : FileSys)
    (sp : SearchPaths) (entry : List Char) (s1 s2 : Nat → Nat)
    (lf1 lf2 wf1 wf2 : Nat) (o1 o2 : List Char)
    (t1 t2 : List (List Char × List Char))
    (hinj : ∀ p q, Reachable hf fs sp (fs.canon entry) p →
      Reachable hf fs sp (fs.canon entry) q → nodeKey hf p = nodeKey hf q → p = q)
    (h1 : preprocessM hf fs sp entry s1 lf1 wf1 = some (.ok (o1, t1)))
    (h2 : preprocessM hf fs sp entry s2 lf2 wf2 = some (.ok (o2, t2))) :
    o1 = o2 ∧ ∀ x, x ∈ t1 ↔ x ∈ t2 := by
  obtain ⟨L1, tr1, hL1, htr1, rfl, rfl⟩ := preprocessM_ok_inv h1
  obtain ⟨L2, tr2, hL2, htr2, rfl, rfl⟩ := preprocessM_ok_inv h2
  obtain ⟨hnd1, hc1, hp1⟩ := runLoader_characterization hinj hL1
  obtain ⟨hnd2, hc2, hp2⟩ := runLoader_characterization hinj hL2
  have hleq := lookup_eq_of_characterizations hc1 hc2 hp1 hp2
  have hg : getLoaded L1 = getLoaded L2 := by
    funext k
    unfold getLoaded
    rw [hleq k]
  have htr2' : writeTrace hf (getLoaded L1) (nodeKey hf (fs.canon entry)) wf2 =
      some tr2 := by
    rw [hg]
    exact htr2
  have h1m := writeTrace_fuel_mono htr1 (Nat.le_max_left wf1 wf2)
  have h2m := writeTrace_fuel_mono htr2' (Nat.le_max_right wf1 wf2)
  have htreq : tr1 = tr2 := Option.some.inj (h1m.symm.trans h2m)
  refine ⟨by rw [htreq], ?_⟩
  intro x
  rw [trackedOf_mem, trackedOf_mem]
  constructor
  · rintro ⟨k, n, hmem, rfl⟩
    have hlk : lookupA L2 k = some (.Loaded n) := by
      rw [← hleq k]
      exact mem_lookupA hnd1 hmem
    exact ⟨k, n, lookupA_mem hlk, rfl⟩
  · rintro ⟨k, n, hmem, rfl⟩
    have hlk : lookupA L1 k = some (.Loaded n) := by
      rw [hleq k]
      exact mem_lookupA hnd2 hmem
    exact ⟨k, n, lookupA_mem hlk, rfl⟩

theorem c9_schedule_independence_witness :
    toChars "hi\n" = toChars "hi\n" ∧
      ∀ x, x ∈ [(toChars "E", toChars "hi\n")] ↔
        x ∈ [(toChars "E", toChars "hi\n")] :=
  c9_schedule_independence hfW fsW9 spEmpty (toChars "E") schedFifo (fun n => n + 1)
    2 3 2 3 (toChars "hi\n") (toChars "hi\n")
    [(toChars "E", toChars "hi\n")] [(toChars "E", toChars "hi\n")]
    (fun p q hp hq _ => (reachable_fsW9 hfW p hp).trans (reachable_fsW9 hfW q hq).symm)
    (by rfl) (by rfl)


/-- C2 (amended): under key-injectivity on the reachable set, the
tracking report of a successful run is exactly the set of canonical
files reachable from the entry through include chunks — a path is
tracked iff it is reachable, each tracked path appears exactly once,
and it is reported with the full source text of that file — independent
of how often (or whether) the file's text was emitted. -/
theorem c2_tracking_exact_of_injective (hf : List Char → Key) (fs : FileSys)
    (sp : SearchPaths) (entry : List Char) (sched : Nat → Nat) (lf wf : Nat)
    (out : List Char) (tracked : List (List Char × List Char))
    (hinj : ∀ p q, Reachable hf fs sp (fs.canon entry) p →
      Reachable hf fs sp (fs.canon entry) q → nodeKey hf p = nodeKey hf q → p = q)
    (h : preprocessM hf fs sp entry sched lf wf = some (.ok (out, tracked))) :
    (∀ p, (∃ s, (p, s) ∈ tracked) ↔ Reachable hf fs sp (fs.canon entry) p)
    ∧ (tracked.map Prod.fst).Nodup
    ∧ ∀ p s, (p, s) ∈ tracked → lookupA fs.files p = some s := by
  obtain ⟨L, tr, hL, htr, rfl, rfl⟩ := preprocessM_ok_inv h
  obtain ⟨hnd, hc, hp⟩ := runLoader_characterization hinj hL
  have hchar : ∀ k n, (k, LoadState.Loaded n) ∈ L → k = nodeKey hf n.path := by
    intro k n hm
    obtain ⟨n', heq, _, _, hk⟩ := hc k _ (mem_lookupA hnd hm)
    obtain rfl : n = n' := by simpa using heq
    exact hk
  refine ⟨?_, trackedOf_paths_nodup hnd hchar, ?_⟩
  · intro p
    constructor
    · rintro ⟨s, hmem⟩
      obtain ⟨k, n, hmemL, heq⟩ := trackedOf_mem.mp hmem
      obtain ⟨hp1, hp2⟩ : p = n.path ∧ s = n.source := by
        simpa [Prod.ext_iff] using heq
      obtain ⟨n', heqn, hR, _, _⟩ := hc k _ (mem_lookupA hnd hmemL)
      obtain rfl : n = n' := by simpa using heqn
      rw [hp1]
      exact hR
    · intro hR
      obtain ⟨n, hP, hLk⟩ := hp p hR
      have hppath : n.path = p := (parseNodeM_ok hP).1
      refine ⟨n.source, trackedOf_mem.mpr ⟨nodeKey hf p, n, lookupA_mem hLk, ?_⟩⟩
      rw [hppath]
  · intro p s hmem
    obtain ⟨k, n, hmemL, heq⟩ := trackedOf_mem.mp hmem
    obtain ⟨rfl, rfl⟩ : p = n.path ∧ s = n.source := by
      simpa [Prod.ext_iff] using heq
    obtain ⟨n', heqn, _, hP, _⟩ := hc k _ (mem_lookupA hnd hmemL)
    obtain rfl : n = n' := by simpa using heqn
    exact (parseNodeM_ok hP).2.2

theorem c2_tracking_exact_of_injective_witness :
    (∀ p, (∃ s, (p, s) ∈ [(toChars "E", toChars "hi\n")]) ↔
        Reachable hfW fsW9 spEmpty (fsW9.canon (toChars "E")) p)
    ∧ (([(toChars "E", toChars "hi\n")].map Prod.fst).Nodup)
    ∧ ∀ p s, (p, s) ∈ [(toChars "E", toChars "hi\n")] →
        lookupA fsW9.files p = some s :=
  c2_tracking_exact_of_injective hfW fsW9 spEmpty (toChars "E") schedFifo 2 3
    (toChars "hi\n") [(toChars "E", toChars "hi\n")]
    (fun p q hp hq _ => (reachable_fsW9 hfW p hp).trans (reachable_fsW9 hfW q hq).symm)
    (by rfl)


theorem dPath_ne_entryC2 (j : Nat) : dPath j ≠ entryC2 := by
  intro h
  simp only [dPath, aTar, entryC2, List.replicate_succ] at h
  rw [show toChars "D/E" = ['D', '/', 'E'] from rfl] at h
  simp at h

theorem dPath_inj {a b : Nat} (h : dPath a = dPath b) : a = b := by
  have hl := congrArg List.length h
  simp [dPath, aTar] at hl
  exact hl

theorem isNotP_aTar (j : Nat) (tail : List Char) :
    isNotP ['"', '\r', '\n'] (aTar j ++ ('"' :: tail)) = some ('"' :: tail, aTar j) := by
  unfold aTar
  induction j with
  | zero => rfl
  | succ k ih =>
    rw [List.replicate_succ, List.cons_append]
    rw [show isNotP ['"', '\r', '\n'] ('a' :: (List.replicate (k + 1) 'a' ++ '"' :: tail)) =
        match isNotP ['"', '\r', '\n'] (List.replicate (k + 1) 'a' ++ '"' :: tail) with
        | some (rem, consumed) => some (rem, 'a' :: consumed)
        | none => some (List.replicate (k + 1) 'a' ++ '"' :: tail, ['a']) from rfl]
    rw [ih]

theorem parse_lineP_incLine (j : Nat) (rest : List Char) :
    parse_lineP (incLine j ++ rest) =
      some (rest, Line.Include (IncludePath.Quote (aTar j))) := by
  have hX : incLine j ++ rest =
      '#' :: 'i' :: 'n' :: 'c' :: 'l' :: 'u' :: 'd' :: 'e' :: ' ' :: '"' ::
        (aTar j ++ ('"' :: '\n' :: rest)) := by
    simp [incLine, List.append_assoc]
  rw [hX]
  have h1 : parse_lineP ('#' :: 'i' :: 'n' :: 'c' :: 'l' :: 'u' :: 'd' :: 'e' :: ' ' :: '"' ::
      (aTar j ++ ('"' :: '\n' :: rest))) =
      lineIncludeP ('#' :: 'i' :: 'n' :: 'c' :: 'l' :: 'u' :: 'd' :: 'e' :: ' ' :: '"' ::
        (aTar j ++ ('"' :: '\n' :: rest))) := rfl
  rw [h1]
  have h2 : lineIncludeP ('#' :: 'i' :: 'n' :: 'c' :: 'l' :: 'u' :: 'd' :: 'e' :: ' ' :: '"' ::
      (aTar j ++ ('"' :: '\n' :: rest))) =
      match includePathP ('"' :: (aTar j ++ ('"' :: '\n' :: rest))) with
      | none => none
      | some (r3, ip) =>
        match lineEndingP (space0P r3) with
        | none => none
        | some rem => some (rem, Line.Include ip) := rfl
  rw [h2]
  have h3 : includePathP ('"' :: (aTar j ++ ('"' :: '\n' :: rest))) =
      some ('\n' :: rest, IncludePath.Quote (aTar j)) := by
    have h4 : anglePathP ('"' :: (aTar j ++ ('"' :: '\n' :: rest))) = none := rfl
    have h5 : quotePathP ('"' :: (aTar j ++ ('"' :: '\n' :: rest))) =
        match isNotP ['"', '\r', '\n'] (aTar j ++ ('"' :: '\n' :: rest)) with
        | none => none
        | some (r2, target) =>
          match charP '"' r2 with
          | none => none
          | some rem => some (rem, IncludePath.Quote target) := rfl
    unfold includePathP
    rw [h4]
    show quotePathP ('"' :: (aTar j ++ ('"' :: '\n' :: rest))) =
      some ('\n' :: rest, IncludePath.Quote (aTar j))
    rw [h5, isNotP_aTar j ('\n' :: rest)]
    rfl
  rw [h3]
  rfl


theorem parseChunksGo_nil {fs : FileSys} {sp : SearchPaths} {path source : List Char}
    {fuel ln cs ce : Nat} {chunks : List Chunk} {once : Bool} :
    parseChunksGo fs sp path source fuel [] ln cs ce chunks once =
      some (.ok (chunks ++ (if cs < ce then [Chunk.Text cs ce] else []), once)) := by
  cases fuel <;> rfl

theorem parseChunksGo_mono {fs : FileSys} {sp : SearchPaths} {path source : List Char} :
    ∀ {f f' : Nat} {rem : List Char} {ln cs ce : Nat} {chunks : List Chunk} {once : Bool}
      {r : Except Err (List Chunk × Bool)},
      parseChunksGo fs sp path source f rem ln cs ce chunks once = some r → f ≤ f' →
      parseChunksGo fs sp path source f' rem ln cs ce chunks once = some r := by
  intro f
  induction f with
  | zero =>
    intro f' rem ln cs ce chunks once r h hle
    cases rem with
    | nil => rw [parseChunksGo_nil] at h ⊢; exact h
    | cons c rem0 => simp [parseChunksGo] at h
  | succ f ih =>
    intro f' rem ln cs ce chunks once r h hle
    cases rem with
    | nil => rw [parseChunksGo_nil] at h ⊢; exact h
    | cons c rem0 =>
      cases f' with
      | zero => omega
      | succ f'' =>
        have hle'' : f ≤ f'' := by omega
        cases hp : parse_lineP (c :: rem0) with
        | none =>
          simp only [parseChunksGo, hp] at h ⊢
          exact h
        | some pr =>
          obtain ⟨rem', line⟩ := pr
          cases line with
          | Text =>
            simp only [parseChunksGo, hp] at h ⊢
            exact ih h hle''
          | PragmaOnce =>
            simp only [parseChunksGo, hp] at h ⊢
            exact ih h hle''
          | Include ip =>
            cases ht : tryResolveIncludePath fs ip (path, source, ln) sp with
            | error e =>
              simp only [parseChunksGo, hp, ht] at h ⊢
              exact h
            | ok resolved =>
              simp only [parseChunksGo, hp, ht] at h ⊢
              exact ih h hle''

theorem parseChunksGo_incstep {fs : FileSys} {sp : SearchPaths} {path source : List Char}
    {fuel : Nat} {rem rem' : List Char} {ln cs ce : Nat} {chunks : List Chunk}
    {once : Bool} {ip : IncludePath} {resolved : List Char}
    (hp : parse_lineP rem = some (rem', Line.Include ip))
    (hres : tryResolveIncludePath fs ip (path, source, ln) sp = Except.ok resolved) :
    parseChunksGo fs sp path source (fuel + 1) rem ln cs ce chunks once =
      parseChunksGo fs sp path source fuel rem' (ln + 1)
        (source.length - rem'.length) (source.length - rem'.length)
        ((chunks ++ (if cs < ce then [Chunk.Text cs ce] else [])) ++ [Chunk.Include resolved])
        once := by
  cases rem with
  | nil =>
    rw [show parse_lineP [] = some ([], Line.Text) from rfl] at hp
    exact absurd hp (by simp)
  | cons c rem0 => simp only [parseChunksGo, hp, hres]

theorem tryResolve_C2 {n m : Nat} (j : Nat) (src : List Char) (ln : Nat)
    (hj : j = n ∨ j = m) :
    tryResolveIncludePath (fsC2 n m) (IncludePath.Quote (aTar j)) (entryC2, src, ln)
      spEmpty = .ok (dPath j) := by
  have hraw : (fsC2 n m).rawFiles (dPath j) = true := by
    rcases hj with rfl | rfl <;> simp [fsC2]
  have hjoin : joinPath (parentDir entryC2) (aTar j) = dPath j := rfl
  simp only [tryResolveIncludePath, hjoin, hraw]
  rfl

theorem lookupA_files_dPathn (n m : Nat) :
    lookupA (fsC2 n m).files (dPath n) = some [] := by
  show lookupA [(entryC2, srcC2 n m), (dPath n, []), (dPath m, [])] (dPath n) = some []
  rw [lookupA_cons, if_neg (dPath_ne_entryC2 n), lookupA_cons, if_pos rfl]

theorem lookupA_files_dPathm {n m : Nat} (hnm : n ≠ m) :
    lookupA (fsC2 n m).files (dPath m) = some [] := by
  show lookupA [(entryC2, srcC2 n m), (dPath n, []), (dPath m, [])] (dPath m) = some []
  rw [lookupA_cons, if_neg (dPath_ne_entryC2 m), lookupA_cons,
    if_neg (fun h => hnm (dPath_inj h).symm), lookupA_cons, if_pos rfl]

theorem parseNodeM_dPath (hf : List Char → Key) {n m : Nat} (j : Nat)
    (hlk : lookupA (fsC2 n m).files (dPath j) = some []) :
    parseNodeM hf (fsC2 n m) spEmpty (dPath j) = some (.ok (nodePC2 hf j)) := by
  simp only [parseNodeM, hlk]
  rfl

theorem parseNodeM_entryC2 (hf : List Char → Key) (n m : Nat) :
    parseNodeM hf (fsC2 n m) spEmpty entryC2 = some (.ok (nodeEC2 hf n m)) := by
  have hsrc : lookupA (fsC2 n m).files entryC2 = some (srcC2 n m) := rfl
  have hpm : parse_lineP (incLine m) = some ([], Line.Include (IncludePath.Quote (aTar m))) := by
    have := parse_lineP_incLine m []
    rwa [List.append_nil] at this
  have hstep1 : parseChunksGo (fsC2 n m) spEmpty entryC2 (srcC2 n m) 3 (srcC2 n m) 0 0 0 [] false =
      parseChunksGo (fsC2 n m) spEmpty entryC2 (srcC2 n m) 2 (incLine n ++ incLine m) 1
        ((srcC2 n m).length - (incLine n ++ incLine m).length)
        ((srcC2 n m).length - (incLine n ++ incLine m).length) [] true := rfl
  have hg3 : parseChunksGo (fsC2 n m) spEmpty entryC2 (srcC2 n m) 3 (srcC2 n m) 0 0 0 [] false =
      some (.ok ([Chunk.Include (dPath n), Chunk.Include (dPath m)], true)) := by
    rw [hstep1]
    rw [show (2 : Nat) = 1 + 1 from rfl]
    rw [parseChunksGo_incstep (parse_lineP_incLine n (incLine m))
      (tryResolve_C2 n (srcC2 n m) 1 (Or.inl rfl))]
    rw [if_neg (lt_irrefl _)]
    rw [show (([] : List Chunk) ++ []) ++ [Chunk.Include (dPath n)] =
      [Chunk.Include (dPath n)] from rfl]
    rw [show (1 : Nat) = 0 + 1 from rfl]
    rw [parseChunksGo_incstep hpm (tryResolve_C2 m (srcC2 n m) (1 + 1) (Or.inr rfl))]
    rw [if_neg (lt_irrefl _)]
    rw [parseChunksGo_nil, if_neg (lt_irrefl _)]
    rfl
  have hlen3 : 3 ≤ (srcC2 n m).length + 1 := by
    unfold srcC2
    rw [List.length_append]
    rw [show (toChars "#pragma once\n").length = 13 from rfl]
    omega
  have hmono := parseChunksGo_mono hg3 hlen3
  simp only [parseNodeM, hsrc]
  rw [hmono]
  rfl


theorem runLoader_C2_caseA (hf : List Char → Key) (sched : Nat → Nat) (n m lf : Nat)
    (hKE : nodeKey hf (dPath n) = nodeKey hf entryC2)
    (hKEm : nodeKey hf (dPath m) = nodeKey hf entryC2) :
    runLoader hf (fsC2 n m) spEmpty entryC2 sched (lf + 1) =
      some (.ok [(nodeKey hf entryC2, LoadState.Loaded (nodeEC2 hf n m))]) := by
  have hcanon : (fsC2 n m).canon entryC2 = entryC2 := rfl
  have hkeyE : (nodeEC2 hf n m).key = nodeKey hf entryC2 := rfl
  have hchE : (nodeEC2 hf n m).chunk_buffer =
      [Chunk.Include (dPath n), Chunk.Include (dPath m)] := rfl
  unfold runLoader
  simp only [hcanon, runLoaderGo, List.length_cons, List.length_nil, Nat.zero_add,
    Nat.mod_one, List.getD_cons_zero, List.eraseIdx_cons_zero, parseNodeM_entryC2 hf n m,
    processChunks, hchE, hKE, hKEm, lookupA, eq_self_iff_true, if_true,
    Option.isSome_some, hkeyE, upsertA]

theorem runLoader_C2_caseB (hf : List Char → Key) (sched : Nat → Nat) (n m lf : Nat)
    (hKE : ¬ nodeKey hf (dPath n) = nodeKey hf entryC2)
    (hcolK : nodeKey hf (dPath n) = nodeKey hf (dPath m)) :
    runLoader hf (fsC2 n m) spEmpty entryC2 sched (lf + 1 + 1) =
      some (.ok [(nodeKey hf entryC2, LoadState.Loaded (nodeEC2 hf n m)),
        (nodeKey hf (dPath n), LoadState.Loaded (nodePC2 hf n))]) := by
  have hcanon : (fsC2 n m).canon entryC2 = entryC2 := rfl
  have hkeyE : (nodeEC2 hf n m).key = nodeKey hf entryC2 := rfl
  have hchE : (nodeEC2 hf n m).chunk_buffer =
      [Chunk.Include (dPath n), Chunk.Include (dPath m)] := rfl
  have hkeyN : (nodePC2 hf n).key = nodeKey hf (dPath n) := rfl
  have hchN : (nodePC2 hf n).chunk_buffer = [] := rfl
  unfold runLoader
  simp only [hcanon, runLoaderGo, List.length_cons, List.length_nil, Nat.zero_add,
    Nat.mod_one, List.getD_cons_zero, List.eraseIdx_cons_zero, parseNodeM_entryC2 hf n m,
    parseNodeM_dPath hf n (lookupA_files_dPathn n m),
    processChunks, hchE, hchN, ← hcolK, hKE, lookupA, eq_self_iff_true, if_true,
    if_false, Option.isSome_some, Option.isSome_none, Bool.false_eq_true,
    List.cons_append, List.nil_append, hkeyE, hkeyN, upsertA]


theorem writeTrace_C2_caseA (hf : List Char → Key) (n m wf : Nat)
    (hKE : nodeKey hf (dPath n) = nodeKey hf entryC2)
    (hKEm : nodeKey hf (dPath m) = nodeKey hf entryC2) :
    writeTrace hf (getLoaded [(nodeKey hf entryC2, LoadState.Loaded (nodeEC2 hf n m))])
      (nodeKey hf entryC2) (wf + 1 + 1 + 1) =
      some [Event.Skip (nodeKey hf entryC2), Event.Skip (nodeKey hf entryC2)] := by
  have hg : getLoaded [(nodeKey hf entryC2, LoadState.Loaded (nodeEC2 hf n m))]
      (nodeKey hf entryC2) = some (nodeEC2 hf n m) := by
    simp [getLoaded, lookupA, LoadState.loaded?]
  have honceE : (nodeEC2 hf n m).once = true := rfl
  have hkeyE : (nodeEC2 hf n m).key = nodeKey hf entryC2 := rfl
  have hget0 : (nodeEC2 hf n m).chunk_buffer.get? 0 = some (Chunk.Include (dPath n)) := rfl
  have hget1 : (nodeEC2 hf n m).chunk_buffer.get? (0 + 1) =
      some (Chunk.Include (dPath m)) := rfl
  have hget2 : (nodeEC2 hf n m).chunk_buffer.get? (0 + 1 + 1) = none := rfl
  simp only [writeTrace, writeGo, hg, honceE, hkeyE, hget0, hget1, hget2, hKE, hKEm,
    eq_self_iff_true, if_true, List.mem_cons, List.not_mem_nil, true_or, or_false,
    and_self, and_true, true_and, Option.map_some']

theorem writeTrace_C2_caseB (hf : List Char → Key) (n m wf : Nat)
    (hKE : ¬ nodeKey hf (dPath n) = nodeKey hf entryC2)
    (hcolK : nodeKey hf (dPath n) = nodeKey hf (dPath m)) :
    writeTrace hf (getLoaded [(nodeKey hf entryC2, LoadState.Loaded (nodeEC2 hf n m)),
        (nodeKey hf (dPath n), LoadState.Loaded (nodePC2 hf n))])
      (nodeKey hf entryC2) (wf + 1 + 1 + 1 + 1 + 1) =
      some [Event.Enter (nodeKey hf (dPath n)), Event.EmitNl,
        Event.Enter (nodeKey hf (dPath n)), Event.EmitNl] := by
  have hgE : getLoaded [(nodeKey hf entryC2, LoadState.Loaded (nodeEC2 hf n m)),
      (nodeKey hf (dPath n), LoadState.Loaded (nodePC2 hf n))]
      (nodeKey hf entryC2) = some (nodeEC2 hf n m) := by
    simp [getLoaded, lookupA, LoadState.loaded?]
  have hgN : getLoaded [(nodeKey hf entryC2, LoadState.Loaded (nodeEC2 hf n m)),
      (nodeKey hf (dPath n), LoadState.Loaded (nodePC2 hf n))]
      (nodeKey hf (dPath n)) = some (nodePC2 hf n) := by
    simp [getLoaded, lookupA, LoadState.loaded?, hKE]
  have honceE : (nodeEC2 hf n m).once = true := rfl
  have honceN : (nodePC2 hf n).once = false := rfl
  have hkeyE : (nodeEC2 hf n m).key = nodeKey hf entryC2 := rfl
  have hkeyN : (nodePC2 hf n).key = nodeKey hf (dPath n) := rfl
  have hget0 : (nodeEC2 hf n m).chunk_buffer.get? 0 = some (Chunk.Include (dPath n)) := rfl
  have hget1 : (nodeEC2 hf n m).chunk_buffer.get? (0 + 1) =
      some (Chunk.Include (dPath m)) := rfl
  have hget2 : (nodeEC2 hf n m).chunk_buffer.get? (0 + 1 + 1) = none := rfl
  have hgetN0 : (nodePC2 hf n).chunk_buffer.get? 0 = none := rfl
  simp only [writeTrace, writeGo, hgE, hgN, honceE, honceN, hkeyE, hkeyN, hget0, hget1,
    hget2, hgetN0, ← hcolK, eq_self_iff_true, if_true, List.mem_cons, List.not_mem_nil,
    true_or, or_false, and_self, and_true, true_and, Bool.false_eq_true, false_and,
    if_false, Option.map_some']

theorem preprocessM_C2_caseA (hf : List Char → Key) (n m : Nat)
    (hKE : nodeKey hf (dPath n) = nodeKey hf entryC2)
    (hKEm : nodeKey hf (dPath m) = nodeKey hf entryC2) :
    preprocessM hf (fsC2 n m) spEmpty entryC2 schedFifo (0 + 1) (0 + 1 + 1 + 1) =
      some (.ok ([], [(entryC2, srcC2 n m)])) := by
  have hcanon : (fsC2 n m).canon entryC2 = entryC2 := rfl
  simp only [preprocessM, hcanon, runLoader_C2_caseA hf schedFifo n m 0 hKE hKEm,
    writeTrace_C2_caseA hf n m 0 hKE hKEm]
  rfl

theorem preprocessM_C2_caseB (hf : List Char → Key) (n m : Nat)
    (hKE : ¬ nodeKey hf (dPath n) = nodeKey hf entryC2)
    (hcolK : nodeKey hf (dPath n) = nodeKey hf (dPath m)) :
    preprocessM hf (fsC2 n m) spEmpty entryC2 schedFifo (0 + 1 + 1)
      (0 + 1 + 1 + 1 + 1 + 1) =
      some (.ok (['\n', '\n'], [(entryC2, srcC2 n m), (dPath n, [])])) := by
  have hcanon : (fsC2 n m).canon entryC2 = entryC2 := rfl
  simp only [preprocessM, hcanon, runLoader_C2_caseB hf schedFifo n m 0 hKE hcolK,
    writeTrace_C2_caseB hf n m 0 hKE hcolK]
  rfl

/-- C2 refutation of the claim as stated: for every 64-bit hash function
there is an input on which a run of the preprocessor succeeds but the
set of tracked paths is strictly smaller than the set of canonical files
reachable from the entry: two reachable include targets with colliding
keys are conflated into one graph entry, and the second target is never
loaded nor tracked. -/
theorem c2_counterexample : ¬ ∃ hf : List Char → Key, ClaimTrackingExact hf := by
  rintro ⟨hf, hcl⟩
  have hni : ¬ Function.Injective fun j : Nat => nodeKey hf (dPath j) := by
    intro hinj
    haveI : Finite Nat := Finite.of_injective _ hinj
    exact not_finite Nat
  rw [Function.not_injective_iff] at hni
  obtain ⟨n, m, hcolK, hnm⟩ := hni
  have hreach : Reachable hf (fsC2 n m) spEmpty ((fsC2 n m).canon entryC2) (dPath m) := by
    refine Reachable.step Reachable.root (parseNodeM_entryC2 hf n m) ?_
    rw [show (nodeEC2 hf n m).chunk_buffer =
      [Chunk.Include (dPath n), Chunk.Include (dPath m)] from rfl]
    simp
  by_cases hKE : nodeKey hf (dPath n) = nodeKey hf entryC2
  · have hKEm : nodeKey hf (dPath m) = nodeKey hf entryC2 := hcolK.symm.trans hKE
    obtain ⟨s, hs⟩ :=
      (hcl (fsC2 n m) spEmpty entryC2 schedFifo _ _ _ _
        (preprocessM_C2_caseA hf n m hKE hKEm) (dPath m)).mpr hreach
    simp only [List.mem_singleton, Prod.mk.injEq] at hs
    exact dPath_ne_entryC2 m hs.1
  · obtain ⟨s, hs⟩ :=
      (hcl (fsC2 n m) spEmpty entryC2 schedFifo _ _ _ _
        (preprocessM_C2_caseB hf n m hKE hcolK) (dPath m)).mpr hreach
    simp only [List.mem_cons, List.not_mem_nil, or_false, Prod.mk.injEq] at hs
    rcases hs with ⟨h1, _⟩ | ⟨h1, _⟩
    · exact dPath_ne_entryC2 m h1
    · exact hnm (dPath_inj h1).symm

end IPP
